import Mathlib

/-!
# CollaborativeEditor: the browser-side editor script

A shallow embedding of `hello/static/hello/editor.js`: the colour hash, the
position codec (`getNodePath`, `getNodeFromPath`), the cursor overlay
(`updateCursor`), the typing badges (`showUserTypingIndicator`), the inbound
message handler, the input listeners and the autosave timers.

Conventions of the embedding.

* A DOM node is a tree value carrying a reference number `ref`; two nodes are
  the same JavaScript object exactly when their references agree.
* A serialised fragment (a value of `innerHTML`) is the same tree with the
  references erased; the parser and the serialiser of the browser are taken
  to be inverse to each other on such fragments.
* A thrown exception is a value of `JsError`; a function that can throw
  returns the state reached together with the exception, if any.
* Time is a natural number of milliseconds; the event loop advances in steps
  of one millisecond and runs the timers that are due.
-/

namespace CollaborativeEditor

/-! ## Numbers and strings -/

/-- UTF-16 code units of a string, as seen by `charCodeAt` and `length`. -/
def utf16Units (s : String) : List Nat :=
  s.toList.flatMap fun c =>
    if c.toNat < 0x10000 then [c.toNat]
    else [0xD800 + (c.toNat - 0x10000) / 0x400, 0xDC00 + (c.toNat - 0x10000) % 0x400]

/-- ToInt32 of an integral number: reduction modulo 2^32 into [-2^31, 2^31). -/
def toInt32 (x : Int) : Int := (x + 2147483648) % 4294967296 - 2147483648

/-- The operator `x << k` on 32-bit signed integers. -/
def shiftLeft (x : Int) (k : Nat) : Int := toInt32 (toInt32 x * 2 ^ (k % 32))

/-- The operator `a % b` of JavaScript on integral numbers: the remainder
takes the sign of the dividend. -/
def jsRem (a b : Int) : Int := a.tmod b

/-- One round of the loop of `getColorForUser`:
`hash = username.charCodeAt(i) + ((hash << 5) - hash)`. -/
def hashStep (hash : Int) (charCode : Nat) : Int :=
  (charCode : Int) + (shiftLeft hash 5 - hash)

/-- The value of `hash` when the loop of `getColorForUser` ends. The numbers
are exact integers (the doubles of the source are exact below 2^53, which
covers every username of fewer than two million code units). -/
def userHash (username : String) : Int :=
  (utf16Units username).foldl hashStep 0

/-- The hue written into the colour: `hash % 360`. -/
def userHue (username : String) : Int := jsRem (userHash username) 360

/-- The function `getColorForUser` of editor.js. -/
def getColorForUser (username : String) : String :=
  "hsl(" ++ toString (userHue username) ++ ", 75%, 50%)"

/-! ## The document tree -/

/-- A serialised node: a text or an element with its tag, class, inline
style declarations and children. -/
inductive Html where
  | text (data : String)
  | element (tagName className : String) (style : List (String × String))
      (childNodes : List Html)
deriving Repr

mutual
/-- Decidable equality of serialised nodes. -/
def Html.decEq : (a b : Html) → Decidable (a = b)
  | .text d, .text d2 =>
    if h : d = d2 then isTrue (by rw [h]) else isFalse (by intro e; cases e; exact h rfl)
  | .text _, .element _ _ _ _ => isFalse (by intro e; cases e)
  | .element _ _ _ _, .text _ => isFalse (by intro e; cases e)
  | .element t c s cs, .element t2 c2 s2 cs2 =>
    if h1 : t = t2 ∧ c = c2 ∧ s = s2 then
      match Html.decEqList cs cs2 with
      | isTrue h2 => isTrue (by rw [h1.1, h1.2.1, h1.2.2, h2])
      | isFalse h2 => isFalse (by intro e; cases e; exact h2 rfl)
    else isFalse (by intro e; cases e; exact h1 ⟨rfl, rfl, rfl⟩)
/-- Decidable equality of serialised fragments. -/
def Html.decEqList : (a b : List Html) → Decidable (a = b)
  | [], [] => isTrue rfl
  | [], _ :: _ => isFalse (by intro e; cases e)
  | _ :: _, [] => isFalse (by intro e; cases e)
  | a :: as, b :: bs =>
    match Html.decEq a b with
    | isTrue h1 =>
      match Html.decEqList as bs with
      | isTrue h2 => isTrue (by rw [h1, h2])
      | isFalse h2 => isFalse (by intro e; cases e; exact h2 rfl)
    | isFalse h1 => isFalse (by intro e; cases e; exact h1 rfl)
end

instance : DecidableEq Html := Html.decEq

/-- A live DOM node: a serialised node whose every node has a reference. -/
inductive Node where
  | text (ref : Nat) (data : String)
  | element (ref : Nat) (tagName className : String) (style : List (String × String))
      (childNodes : List Node)
deriving Repr

mutual
/-- Decidable equality of nodes. -/
def Node.decEq : (a b : Node) → Decidable (a = b)
  | .text r d, .text r2 d2 =>
    if h : r = r2 ∧ d = d2 then isTrue (by rw [h.1, h.2])
    else isFalse (by intro e; cases e; exact h ⟨rfl, rfl⟩)
  | .text _ _, .element _ _ _ _ _ => isFalse (by intro e; cases e)
  | .element _ _ _ _ _, .text _ _ => isFalse (by intro e; cases e)
  | .element r t c s cs, .element r2 t2 c2 s2 cs2 =>
    if h1 : r = r2 ∧ t = t2 ∧ c = c2 ∧ s = s2 then
      match Node.decEqList cs cs2 with
      | isTrue h2 => isTrue (by rw [h1.1, h1.2.1, h1.2.2.1, h1.2.2.2, h2])
      | isFalse h2 => isFalse (by intro e; cases e; exact h2 rfl)
    else isFalse (by intro e; cases e; exact h1 ⟨rfl, rfl, rfl, rfl⟩)
/-- Decidable equality of lists of nodes. -/
def Node.decEqList : (a b : List Node) → Decidable (a = b)
  | [], [] => isTrue rfl
  | [], _ :: _ => isFalse (by intro e; cases e)
  | _ :: _, [] => isFalse (by intro e; cases e)
  | a :: as, b :: bs =>
    match Node.decEq a b with
    | isTrue h1 =>
      match Node.decEqList as bs with
      | isTrue h2 => isTrue (by rw [h1, h2])
      | isFalse h2 => isFalse (by intro e; cases e; exact h2 rfl)
    | isFalse h1 => isFalse (by intro e; cases e; exact h1 rfl)
end

instance : DecidableEq Node := Node.decEq

/-- The reference (object identity) of a node. -/
def Node.ref : Node → Nat
  | .text r _ => r
  | .element r _ _ _ _ => r

/-- The property `node.childNodes`; a text node has none. -/
def Node.childNodes : Node → List Node
  | .text _ _ => []
  | .element _ _ _ _ cs => cs

/-- The length of a node as a range boundary container: the number of code
units of a text, the number of children of an element. -/
def Node.length : Node → Nat
  | .text _ d => (utf16Units d).length
  | .element _ _ _ _ cs => cs.length

mutual
/-- Serialisation of a node: the references are dropped. -/
def Node.erase : Node → Html
  | .text _ d => .text d
  | .element _ t c s cs => .element t c s (eraseList cs)
/-- Serialisation of a list of nodes. -/
def eraseList : List Node → List Html
  | [] => []
  | n :: ns => n.erase :: eraseList ns
end

/-- The getter `node.innerHTML`: the serialisation of the children. -/
def innerHTML (node : Node) : List Html := eraseList node.childNodes

mutual
/-- Parsing of a serialised node into fresh nodes: references are handed out
from `next` on, in document order. -/
def Html.create : Html → Nat → Node × Nat
  | .text d, next => (.text next d, next + 1)
  | .element t c s cs, next =>
    let r := Html.createList cs (next + 1)
    (.element next t c s r.1, r.2)
/-- Parsing of a serialised fragment into fresh nodes. -/
def Html.createList : List Html → Nat → List Node × Nat
  | [], next => ([], next)
  | h :: hs, next =>
    let r := Html.create h next
    let rs := Html.createList hs r.2
    (r.1 :: rs.1, rs.2)
end

mutual
/-- The nodes of a tree in document order, each with the child indices that
lead to it from the root. -/
def Node.locs : Node → List (List Nat × Node)
  | .text r d => [([], .text r d)]
  | .element r t c s cs => ([], .element r t c s cs) :: locsList 0 cs
/-- The nodes below a list of siblings, the first sibling having index `i`. -/
def locsList : Nat → List Node → List (List Nat × Node)
  | _, [] => []
  | i, n :: ns => (n.locs.map fun pm => (i :: pm.1, pm.2)) ++ locsList (i + 1) ns
end

/-- The nodes of a tree: the root and its descendants. -/
def Node.nodes (n : Node) : List Node := n.locs.map (·.2)

/-- The references of the nodes of a tree. -/
def Node.refs (n : Node) : List Nat := n.locs.map (·.2.ref)

/-- The property `node.parentNode`, for the node with reference `ref`, within
the tree below `editor`: the node that has it among its children. Nothing is
returned for a node that is not below `editor`. -/
def parentNode (editor : Node) (ref : Nat) : Option Node :=
  (editor.locs.find? fun pm => pm.2.childNodes.any (·.ref == ref)).map (·.2)

/-- The call `Array.prototype.indexOf.call(childNodes, node)`: the index of the
first child identical to the node, or -1. -/
def indexOf (childNodes : List Node) (ref : Nat) : Int :=
  match childNodes.findIdx? (·.ref == ref) with
  | some i => (i : Int)
  | none => -1

/-! ## The position codec -/

/-- Exceptions thrown by the modelled code. -/
inductive JsError where
  | TypeError
  | IndexSizeError
deriving DecidableEq, Repr

/-- A value that is a node, `undefined` or `null`. -/
inductive JsNode where
  | node (n : Node)
  | undefined
  | null
deriving DecidableEq, Repr

deriving instance DecidableEq for Except

/-- Truthiness of such a value: a node is truthy, `undefined` and `null` are
falsy. -/
def JsNode.isNode : JsNode → Bool
  | .node _ => true
  | _ => false

/-- The expression `node.childNodes[index]`: `undefined` when out of range. -/
def childAt (node : Node) (index : Int) : JsNode :=
  if index < 0 then .undefined
  else match node.childNodes[index.toNat]? with
    | some c => .node c
    | none => .undefined

/-- The while loop of `getNodePath`, run for at most `fuel` tests of its
condition. The variable `node` is a reference or null; `none` is returned when
the fuel is used up. Reading `node.parentNode.childNodes` of a node without a
parent throws a TypeError. -/
def getNodePathLoop (editor : Node) :
    Nat → Option Nat → List Int → Option (Except JsError (List Int))
  | 0, _, _ => none
  | _ + 1, none, path => some (.ok path)
  | fuel + 1, some node, path =>
    if node = editor.ref then some (.ok path)
    else match parentNode editor node with
      | none => some (.error .TypeError)
      | some parent =>
        getNodePathLoop editor fuel (some parent.ref) (indexOf parent.childNodes node :: path)

/-- The function `getNodePath` of editor.js, with fuel for its loop. -/
def getNodePath (editor : Node) (fuel : Nat) (node : Option Nat) :
    Option (Except JsError (List Int)) :=
  getNodePathLoop editor fuel node []

/-- The for loop of `getNodeFromPath`: `node = node.childNodes[index]` for each
index; reading `childNodes` of `undefined` throws a TypeError. -/
def getNodeFromPathLoop : JsNode → List Int → Except JsError JsNode
  | node, [] => .ok node
  | .node n, index :: rest => getNodeFromPathLoop (childAt n index) rest
  | _, _ :: _ => .error .TypeError

/-- The function `getNodeFromPath` of editor.js: the loop inside `try`, and
`null` from the `catch` block. -/
def getNodeFromPath (editor : Node) (path : List Int) : JsNode :=
  match getNodeFromPathLoop (.node editor) path with
  | .ok node => node
  | .error _ => .null

/-- Descent along child indices that are all in range. -/
def nodeAt : Node → List Nat → Option Node
  | n, [] => some n
  | n, i :: p =>
    match n.childNodes[i]? with
    | some c => nodeAt c p
    | none => none

/-! ## The client state -/

/-- A cursor position as sent on the channel: `{ path, offset }`. -/
structure Position where
  path : List Int
  offset : Nat
deriving DecidableEq, Repr

/-- A message of the channel: `{ action, content, cursorPosition, user }`; a
`cursorPosition` that is null or absent is `none`. -/
structure EditMessage where
  action : String
  content : List Html
  user : String
  cursorPosition : Option Position
deriving DecidableEq, Repr

/-- The callbacks handed to `setTimeout` and `setInterval`. -/
inductive Callback where
  | removeTyping (username : String)
  | autosaveDocument
deriving DecidableEq, Repr

/-- A pending timer: its id, the time it is due, its callback and, for an
interval, its period. -/
structure Timer where
  id : Nat
  due : Nat
  callback : Callback
  period : Option Nat
deriving DecidableEq, Repr

/-- A typing badge, child of the `typing-indicator` element: a `div` of class
`typing-notification` with its `innerText`, `dataset.user` and
`dataset.timeoutId` (absent until it is assigned). -/
structure Badge where
  innerText : String
  user : String
  timeoutId : Option Nat
deriving DecidableEq, Repr

/-- One call of `autosaveDocument`: the time, the id of the timer that ran it
and the content it posts. -/
structure Save where
  time : Nat
  timer : Nat
  content : List Html
deriving DecidableEq, Repr

/-- Rectangle of `getBoundingClientRect`, as far as the code reads it. -/
structure DOMRect where
  left : Int
  top : Int
deriving DecidableEq, Repr

/-- The layout engine of the browser: the rectangle of a collapsed range at
(node, offset) and the rectangle of the editor, for a given editor tree.
Coordinates are whole pixels. -/
structure Layout where
  rangeRect : Node → Nat → Nat → DOMRect
  editorRect : Node → DOMRect

/-- The state of the page as far as editor.js reads and writes it. -/
structure Client where
  /-- The argument `currentUser` of the script. -/
  currentUser : String
  /-- The element `editor` with its subtree. -/
  editor : Node
  /-- Nodes that were removed from the editor and may still be referenced. -/
  detached : List Node
  /-- The next fresh node reference. -/
  nextRef : Nat
  /-- The variable `isUpdating`. -/
  isUpdating : Bool
  /-- The own properties of the object `cursors`: username and marker. -/
  cursors : List (String × Nat)
  /-- The first range of the selection: start container and start offset. -/
  selection : Option (Nat × Nat)
  /-- The children of the element `typingIndicator`. -/
  typingIndicator : List Badge
  /-- The current time in milliseconds. -/
  now : Nat
  /-- The pending timers, in the order of their creation. -/
  timers : List Timer
  /-- The next timer id. -/
  nextTimerId : Nat
  /-- The variable `autosaveTimeout` of the closure made by `setupAutosave`;
  `none` while `setupAutosave` has not run and its listener is not registered. -/
  autosaveTimeout : Option (Option Nat)
  /-- The messages passed to `socket.send`, oldest first. -/
  sent : List EditMessage
  /-- The calls of `autosaveDocument`, oldest first. -/
  saves : List Save
deriving Repr

/-- The page when the script starts: an empty editor, nothing pending. -/
def Client.initial (currentUser : String) : Client where
  currentUser := currentUser
  editor := .element 0 "div" "" [] []
  detached := []
  nextRef := 1
  isUpdating := false
  cursors := []
  selection := none
  typingIndicator := []
  now := 0
  timers := []
  nextTimerId := 1
  autosaveTimeout := none
  sent := []
  saves := []

/-! ### DOM mutation -/

/-- The node with its children replaced (a text node has no children). -/
def Node.withChildren : Node → List Node → Node
  | .text r d, _ => .text r d
  | .element r t c s _, cs => .element r t c s cs

/-- The call `parent.appendChild(child)` for a child without a parent. -/
def Node.appendChild (parent child : Node) : Node :=
  parent.withChildren (parent.childNodes ++ [child])

/-- Assignment to one property of a `style` object: an existing declaration
is overwritten in place, a new one is added at the end. The value is kept as
assigned. -/
def setProperty (style : List (String × String)) (name value : String) :
    List (String × String) :=
  if style.any (·.1 == name) then
    style.map fun d => if d.1 == name then (name, value) else d
  else style ++ [(name, value)]

mutual
/-- Assignment of style properties to the element with reference `ref`,
wherever it is in the tree. -/
def Node.setStyle (ref : Nat) (decls : List (String × String)) : Node → Node
  | .text r d => .text r d
  | .element r t c s cs =>
    .element r t c
      (if r = ref then decls.foldl (fun st d => setProperty st d.1 d.2) s else s)
      (setStyleList ref decls cs)
/-- Assignment of style properties within a list of nodes. -/
def setStyleList (ref : Nat) (decls : List (String × String)) : List Node → List Node
  | [] => []
  | n :: ns => n.setStyle ref decls :: setStyleList ref decls ns
end

/-- The setter `editor.innerHTML = content`: the children are removed (and
kept among the detached nodes), the content is parsed into fresh nodes, and a
selection that was inside the editor collapses to its start. -/
def Client.setInnerHTML (content : List Html) (s : Client) : Client :=
  let r := Html.createList content s.nextRef
  { s with
    editor := s.editor.withChildren r.1
    detached := s.detached ++ s.editor.childNodes
    nextRef := r.2
    selection := s.selection.map fun sel =>
      if sel.1 ∈ s.editor.refs then (s.editor.ref, 0) else sel }

/-! ### Timers -/

/-- The call `setTimeout(callback, delay)`; the id is returned. -/
def Client.setTimeout (callback : Callback) (delay : Nat) (s : Client) : Nat × Client :=
  (s.nextTimerId,
   { s with
     timers := s.timers ++ [Timer.mk s.nextTimerId (s.now + delay) callback none]
     nextTimerId := s.nextTimerId + 1 })

/-- The call `setInterval(callback, delay)`; the id is returned. -/
def Client.setInterval (callback : Callback) (delay : Nat) (s : Client) : Nat × Client :=
  (s.nextTimerId,
   { s with
     timers := s.timers ++ [Timer.mk s.nextTimerId (s.now + delay) callback (some delay)]
     nextTimerId := s.nextTimerId + 1 })

/-- The call `clearTimeout(id)`. -/
def Client.clearTimeout (id : Nat) (s : Client) : Client :=
  { s with timers := s.timers.filter fun t => t.id != id }

/-! ### The cursor overlay -/

/-- The names that every object inherits from `Object.prototype`. -/
def objectPrototypeKeys : List String :=
  ["constructor", "__defineGetter__", "__defineSetter__", "hasOwnProperty",
   "__lookupGetter__", "__lookupSetter__", "isPrototypeOf", "propertyIsEnumerable",
   "toString", "valueOf", "__proto__", "toLocaleString"]

/-- The value of `cursors[username]`: a marker element, an inherited member of
`Object.prototype` (truthy, not an element), or `undefined`. -/
inductive JsCursor where
  | element (ref : Nat)
  | inherited
  | undefined
deriving DecidableEq, Repr

/-- The expression `cursors[username]`. -/
def cursorsGet (cursors : List (String × Nat)) (username : String) : JsCursor :=
  match cursors.lookup username with
  | some ref => .element ref
  | none => if username ∈ objectPrototypeKeys then .inherited else .undefined

/-- Number of pixels as written by a template literal. -/
def px (n : Int) : String := toString n ++ "px"

/-- The seven assignments to `cursor.style` that end `updateCursor`. -/
def cursorStyle (username : String) (rect editorRect : DOMRect) : List (String × String) :=
  [("position", "absolute"),
   ("left", px (rect.left - editorRect.left)),
   ("top", px (rect.top - editorRect.top)),
   ("width", "2px"),
   ("height", "1em"),
   ("background-color", getColorForUser username),
   ("z-index", "1000")]

/-- The marker made by `updateCursor` for a user: `document.createElement`
of a `div`, with `className` and `style.backgroundColor` assigned. -/
def createCursor (username : String) (ref : Nat) : Node :=
  .element ref "div" "user-cursor"
    (setProperty [] "background-color" (getColorForUser username)) []

/-- The first block of `updateCursor`: `cursors[username]`, and when that is
falsy a new `div` of class `user-cursor` with its background colour, appended
to the editor and stored in `cursors`. -/
def obtainCursor (username : String) (s : Client) : Client × JsCursor :=
  match cursorsGet s.cursors username with
  | .undefined =>
    ({ s with
       editor := s.editor.appendChild (createCursor username s.nextRef)
       nextRef := s.nextRef + 1
       cursors := (username, s.nextRef) :: s.cursors },
     .element s.nextRef)
  | cursor => (s, cursor)

/-- The function `updateCursor` of editor.js. The state reached is returned
together with the exception thrown, if any: `range.setStart` throws an
IndexSizeError for an offset beyond the length of the node, and assigning to
`cursor.style.position` throws a TypeError when `cursor` is not an element. -/
def updateCursor (L : Layout) (username : String) (position : Position) (s : Client) :
    Client × Option JsError :=
  let r := obtainCursor username s
  let s := r.1
  match getNodeFromPath s.editor position.path with
  | .null => (s, none)
  | .undefined => (s, none)
  | .node node =>
    if node.length < position.offset % 4294967296 then (s, some .IndexSizeError)
    else
      let rect := L.rangeRect s.editor node.ref (position.offset % 4294967296)
      let editorRect := L.editorRect s.editor
      match r.2 with
      | .element ref =>
        ({ s with
           editor := s.editor.setStyle ref (cursorStyle username rect editorRect)
           detached := setStyleList ref (cursorStyle username rect editorRect) s.detached },
         none)
      | _ => (s, some .TypeError)

/-! ### The typing badges -/

/-- The call `document.querySelector` for
`.typing-notification[data-user="username"]`: the first badge of that user.
Usernames are taken to need no escaping in the selector, and the editor
content to hold no element of class `typing-notification`. -/
def queryIndicator (username : String) (s : Client) : Option Badge :=
  s.typingIndicator.find? fun b => b.user == username

/-- Assignment of `dataset.timeoutId` on the first badge of a user. -/
def setTimeoutId (username : String) (id : Nat) : List Badge → List Badge
  | [] => []
  | b :: bs =>
    if b.user == username then { b with timeoutId := some id } :: bs
    else b :: setTimeoutId username id bs

/-- The callback of the timer armed by `showUserTypingIndicator`: the first
badge of the user, if there is one, is removed. -/
def removeTyping (username : String) (s : Client) : Client :=
  match queryIndicator username s with
  | some indicator => { s with typingIndicator := s.typingIndicator.erase indicator }
  | none => s

/-- The function `showUserTypingIndicator` of editor.js. -/
def showUserTypingIndicator (username : String) (s : Client) : Client :=
  let existingIndicator := queryIndicator username s
  let s := match existingIndicator with
    | some indicator =>
      match indicator.timeoutId with
      | some id => s.clearTimeout id
      | none => s
    | none =>
      { s with typingIndicator :=
          s.typingIndicator ++ [Badge.mk (username ++ " is typing...") username none] }
  let r := s.setTimeout (.removeTyping username) 2000
  match existingIndicator with
  | some _ => { r.2 with typingIndicator := setTimeoutId username r.1 r.2.typingIndicator }
  | none => r.2

/-! ### Autosave -/

/-- The function `autosaveDocument` of editor.js, run by the timer `timer`:
the current content is posted to the save resource. -/
def autosaveDocument (timer : Nat) (s : Client) : Client :=
  { s with saves := s.saves ++ [Save.mk s.now timer (innerHTML s.editor)] }

/-- The function `setupAutosave` of editor.js: the interval of 10000ms is
started and the debounce listener is registered with `autosaveTimeout`
undefined. -/
def setupAutosave (s : Client) : Client :=
  { (s.setInterval .autosaveDocument 10000).2 with autosaveTimeout := some none }

/-- The input listener registered by `setupAutosave`: a pending timeout is
cleared when `autosaveTimeout` is truthy, and a timeout of 5000ms is armed.
Nothing happens while the listener is not registered. -/
def autosaveListener (s : Client) : Client :=
  match s.autosaveTimeout with
  | none => s
  | some autosaveTimeout =>
    let s := match autosaveTimeout with
      | some id => if id != 0 then s.clearTimeout id else s
      | none => s
    let r := s.setTimeout .autosaveDocument 5000
    { r.2 with autosaveTimeout := some (some r.1) }

/-- The second half of `loadDocumentContent`: the fetched content is assigned
to `editor.innerHTML` and `setupAutosave` is called. -/
def loadCompleted (content : List Html) (s : Client) : Client :=
  setupAutosave (s.setInnerHTML content)

/-! ### The channel -/

/-- The function `getCursorPosition` of editor.js: null without a range, else
the path of the start container and the start offset. The loop of
`getNodePath` is given more rounds than the editor has nodes; `none` stands
for a loop that has not ended by then. -/
def getCursorPosition (s : Client) : Option (Except JsError (Option Position)) :=
  match s.selection with
  | none => some (.ok none)
  | some sel =>
    match getNodePath s.editor (s.editor.locs.length + 1) (some sel.1) with
    | none => none
    | some (.error e) => some (.error e)
    | some (.ok path) => some (.ok (some (Position.mk path sel.2)))

/-- The input listener that sends local edits: nothing is done while
`isUpdating` is true; otherwise the content and the cursor position are sent.
An exception out of `getCursorPosition` ends the listener before the send. -/
def inputListener (s : Client) : Client :=
  if !s.isUpdating then
    match getCursorPosition s with
    | some (.ok cursorPosition) =>
      { s with sent := s.sent ++
          [EditMessage.mk "edit" (innerHTML s.editor) s.currentUser cursorPosition] }
    | _ => s
  else s

/-- Dispatch of an `input` event on the editor: the listeners run in the
order of their registration. -/
def dispatchInput (s : Client) : Client :=
  autosaveListener (inputListener s)

/-- A local edit: the browser has changed the children of the editor and the
selection, and dispatches `input`. Children that left the editor are kept
among the detached nodes. -/
def localInput (childNodes : List Node) (selection : Option (Nat × Nat)) (s : Client) :
    Client :=
  let editor := s.editor.withChildren childNodes
  dispatchInput
    { s with
      editor := editor
      detached := s.detached ++ s.editor.childNodes.filter fun n => n.ref ∉ editor.refs
      nextRef := max s.nextRef (editor.refs.foldl max 0 + 1)
      selection := selection }

/-- The first block of the handler `socket.onmessage`: unless `isUpdating` is
set or the content is the current one, `isUpdating` is raised, the content is
assigned to `editor.innerHTML` and `isUpdating` is lowered. `firesInput` says
whether that assignment dispatches an `input` event (browsers do not; the
listeners are written to stand it). -/
def replaceContent (firesInput : Bool) (content : List Html) (s : Client) : Client :=
  if !s.isUpdating && innerHTML s.editor != content then
    let s := { s with isUpdating := true }
    let s := s.setInnerHTML content
    let s := if firesInput then dispatchInput s else s
    { s with isUpdating := false }
  else s

/-- The handler `socket.onmessage` of editor.js, applied to the parsed message.
The state reached is returned with the exception thrown, if any. -/
def onmessage (L : Layout) (firesInput : Bool) (data : EditMessage) (s : Client) :
    Client × Option JsError :=
  if data.action = "edit" then
    let s := replaceContent firesInput data.content s
    let r := match data.cursorPosition with
      | some cursorPosition => updateCursor L data.user cursorPosition s
      | none => (s, none)
    match r.2 with
    | some e => (r.1, some e)
    | none => (showUserTypingIndicator data.user r.1, none)
  else (s, none)

/-- Whether a node is an element. -/
def Node.isElement : Node → Bool
  | .text _ _ => false
  | .element _ _ _ _ _ => true

/-- Consistency of the references of a state: the editor is an element, and
every reference in the editor or in `cursors` has been handed out already. -/
def Client.WellFormed (s : Client) : Prop :=
  s.editor.isElement = true ∧ (∀ r ∈ s.editor.refs, r < s.nextRef) ∧
    ∀ um ∈ s.cursors, um.2 < s.nextRef

instance (s : Client) : Decidable s.WellFormed :=
  inferInstanceAs (Decidable (s.editor.isElement = true ∧ (∀ r ∈ s.editor.refs, r < s.nextRef) ∧
    ∀ um ∈ s.cursors, um.2 < s.nextRef))

/-! ### The event loop -/

/-- A timer after the timers due at `now` have run: a timeout that was due is
gone, an interval that was due is due again one period later. -/
def rearm (now : Nat) (t : Timer) : Option Timer :=
  if t.due ≤ now then
    match t.period with
    | none => none
    | some p => some { t with due := t.due + p }
  else some t

/-- The callback of a timer, run when the timer fires. -/
def runCallback (s : Client) (t : Timer) : Client :=
  match t.callback with
  | .removeTyping username => removeTyping username s
  | .autosaveDocument => autosaveDocument t.id s

/-- The timers that are due run, in the order of their creation. No callback
of this script sets or clears a timer, so the timers are updated first. -/
def fireDue (s : Client) : Client :=
  (s.timers.filter fun t => t.due ≤ s.now).foldl runCallback
    { s with timers := s.timers.filterMap (rearm s.now) }

/-- One millisecond passes. -/
def tick (s : Client) : Client :=
  fireDue { s with now := s.now + 1 }

/-- The state after `n` milliseconds without any other event. -/
def advance : Nat → Client → Client
  | 0, s => s
  | n + 1, s => advance n (tick s)

/-- The state when the clock reaches `t` without any other event. -/
def advanceTo (t : Nat) (s : Client) : Client :=
  advance (t - s.now) s

/-! ### Runs of local input -/

/-- A local edit with the time at which it happens. -/
structure InputEvent where
  time : Nat
  childNodes : List Node
  selection : Option (Nat × Nat)

/-- The state after a sequence of local edits, each at its time, with nothing
but the timers in between. -/
def runInputs : List InputEvent → Client → Client
  | [], s => s
  | e :: rest, s => runInputs rest (localInput e.childNodes e.selection (advanceTo e.time s))

/-- The times of the calls of `autosaveDocument` made by the timer `interval`. -/
def intervalSaves (interval : Nat) (s : Client) : List Nat :=
  (s.saves.filter fun v => v.timer == interval).map (·.time)

/-- The times of the calls of `autosaveDocument` made by any other timer. -/
def debounceSaves (interval : Nat) (s : Client) : List Nat :=
  (s.saves.filter fun v => v.timer != interval).map (·.time)

/-- The pending timers whose callback is `autosaveDocument`. -/
def autoTimers (s : Client) : List Timer :=
  s.timers.filter fun t => t.callback == .autosaveDocument

/-- A state in which `setupAutosave` has not run: its listener is not
registered, nothing has been saved and no timer would save. -/
def Client.BeforeSetup (s : Client) : Prop :=
  s.autosaveTimeout = none ∧ s.saves = [] ∧ ∀ t ∈ s.timers, t.callback ≠ .autosaveDocument

instance (s : Client) : Decidable s.BeforeSetup :=
  inferInstanceAs (Decidable (s.autosaveTimeout = none ∧ s.saves = [] ∧
    ∀ t ∈ s.timers, t.callback ≠ .autosaveDocument))

/-- Two consecutive inputs of a burst: the second comes later, less than
5000ms after the first. -/
def InBurst (a b : InputEvent) : Prop := a.time < b.time ∧ b.time < a.time + 5000

instance (a b : InputEvent) : Decidable (InBurst a b) :=
  inferInstanceAs (Decidable (a.time < b.time ∧ b.time < a.time + 5000))

/-- The autosave timers of a state, for the interval `i0` started at time `t0`:
the interval is pending with its next due time on the grid of 10000ms, the
other pending autosave timers are the timeouts `pending`, the interval has
saved at every grid point so far, and the other timers have saved at the times
`fired`. -/
def AutosaveState (i0 t0 : Nat) (pending : List Timer) (fired : List Nat) (s : Client) :
    Prop :=
  ∃ k, autoTimers s =
      Timer.mk i0 (t0 + 10000 * (k + 1)) .autosaveDocument (some 10000) :: pending ∧
    t0 + 10000 * k ≤ s.now ∧ s.now < t0 + 10000 * (k + 1) ∧
    intervalSaves i0 s = (List.range k).map (fun j => t0 + 10000 * (j + 1)) ∧
    debounceSaves i0 s = fired ∧ i0 < s.nextTimerId ∧
    ∀ t ∈ pending, t.period = none ∧ i0 < t.id ∧ s.now < t.due

/-! ### Reachable states -/

/-- The events that the script reacts to: the document has been fetched, a
message has arrived, the user has edited the surface, a millisecond has
passed. -/
inductive Event where
  | load (content : List Html)
  | message (firesInput : Bool) (data : EditMessage)
  | input (childNodes : List Node) (selection : Option (Nat × Nat))
  | tick

/-- The state after one event; an exception thrown by a handler ends that
handler and leaves the state it had reached. -/
def step (L : Layout) (s : Client) : Event → Client
  | .load content => loadCompleted content s
  | .message firesInput data => (onmessage L firesInput data s).1
  | .input childNodes selection => localInput childNodes selection s
  | .tick => tick s

/-- The state of the page of `currentUser` after a sequence of events. -/
def reach (L : Layout) (currentUser : String) (events : List Event) : Client :=
  events.foldl (step L) (Client.initial currentUser)

/-! ### Sample values -/

/-- A layout that puts every range at (10, 20) and the editor at (3, 4). -/
def sampleLayout : Layout :=
  Layout.mk (fun _ _ _ => DOMRect.mk 10 20) (fun _ => DOMRect.mk 3 4)

/-- A layout that puts a range at a place that depends on its container. -/
def steppedLayout : Layout :=
  Layout.mk (fun _ node _ => DOMRect.mk (10 + node) 20) (fun _ => DOMRect.mk 3 4)

/-- The page of alice once the document `<p>hi</p>` has been loaded. -/
def sampleClient : Client :=
  loadCompleted [.element "p" "" [] [.text "hi"]] (Client.initial "alice")

/-- The message `bye` of bob, with a cursor position. -/
def sampleMessage : EditMessage :=
  EditMessage.mk "edit" [.element "p" "" [] [.text "bye"]] "bob" (some (Position.mk [0, 0] 3))

/-- The tree `<div id="editor"><p>hi</p><p><b>x</b>y</p></div>`. -/
def sampleEditor : Node :=
  .element 0 "div" "" [] [
    .element 1 "p" "" [] [.text 2 "hi"],
    .element 3 "p" "" [] [.element 4 "b" "" [] [.text 5 "x"], .text 6 "y"]]


/-! ## Theorems -/

theorem toInt32_bounds (x : Int) : -2147483648 ≤ toInt32 x ∧ toInt32 x < 2147483648 := by
  unfold toInt32
  omega

theorem tmod_nonpos (a : Int) (h : a ≤ 0) : a.tmod 360 ≤ 0 ∧ -360 < a.tmod 360 := by
  obtain ⟨n, rfl⟩ : ∃ n : Nat, a = -(n : Int) := ⟨a.natAbs, by omega⟩
  have key : (-(n : Int)).tmod 360 = -((n % 360 : Nat) : Int) := by
    cases n with
    | zero => simp
    | succ k => rfl
  omega

/-- C8, as the spec has it, fails: the hash of "alice1" is negative, and so is
the hue that `getColorForUser` writes for it. -/
theorem getColorForUser_negative_hue :
    userHash "alice1" = -1414973007 ∧ userHue "alice1" = -207 ∧
    getColorForUser "alice1" = "hsl(-207, 75%, 50%)" ∧ ¬ (0 ≤ userHue "alice1") := by
  decide

/-- C8, as the code has it. For every username `getColorForUser` returns
"hsl(h, 75%, 50%)" where h is the remainder of the hash by 360 with the sign
of the hash: h is congruent to the hash modulo 360, lies strictly between -360
and 360, and is negative only when the hash is. -/
theorem getColorForUser_hue (username : String) :
    getColorForUser username = "hsl(" ++ toString (userHue username) ++ ", 75%, 50%)" ∧
    userHue username = (userHash username).tmod 360 ∧
    (userHue username - userHash username) % 360 = 0 ∧
    -360 < userHue username ∧ userHue username < 360 ∧
    (0 ≤ userHash username → 0 ≤ userHue username) ∧
    (userHash username ≤ 0 → userHue username ≤ 0) := by
  have hlt := Int.tmod_lt_of_pos (userHash username) (show (0:Int) < 360 by decide)
  refine ⟨rfl, rfl, ?_, ?_, hlt, ?_, ?_⟩
  · unfold userHue jsRem
    have := Int.tmod_add_tdiv (userHash username) 360
    omega
  · unfold userHue jsRem
    rcases le_total 0 (userHash username) with h | h
    · have := Int.tmod_nonneg 360 h
      omega
    · exact (tmod_nonpos _ h).2
  · intro h
    exact Int.tmod_nonneg 360 h
  · intro h
    exact (tmod_nonpos _ h).1

/-- C2, evaluated: in `<div><p>hi</p><p><b>x</b>y</p></div>` the second child
has two children. The path [1, 5, 0] leaves the range before its end and
`getNodeFromPath` returns null from its `catch` block; the path [1, 5] leaves
the range at its last index, nothing is thrown, and `getNodeFromPath` returns
`undefined`, not null. -/
theorem getNodeFromPath_last_index_out_of_range :
    getNodeFromPath sampleEditor [1, 5, 0] = .null ∧
    getNodeFromPath sampleEditor [1, 5] = .undefined ∧
    getNodeFromPath sampleEditor [1, 5] ≠ .null := by
  decide


/-! ### The document tree -/

/-- Induction over a tree: a property that holds of every text, and of every
element whose children have it, holds of every node. -/
theorem node_induction {P : Node → Prop} (htext : ∀ r d, P (.text r d))
    (helem : ∀ r t c s cs, (∀ n ∈ cs, P n) → P (.element r t c s cs)) (n : Node) : P n :=
  @Node.rec P (fun cs => ∀ n ∈ cs, P n) htext helem
    (fun _ h => absurd h (List.not_mem_nil _))
    (fun _ _ hhead htail m hm => by
      rcases List.mem_cons.1 hm with h | h
      · exact h ▸ hhead
      · exact htail m h) n

theorem mem_locsList (cs : List Node) (i : Nat) (p : List Nat) (m : Node) :
    (p, m) ∈ locsList i cs ↔
      ∃ j c q, p = (i + j) :: q ∧ cs[j]? = some c ∧ (q, m) ∈ c.locs := by
  induction cs generalizing i with
  | nil => simp [locsList]
  | cons a as ih =>
    rw [locsList, List.mem_append, ih]
    constructor
    · rintro (h | ⟨j, c, q, rfl, hc, hq⟩)
      · obtain ⟨⟨q, m2⟩, hq, heq⟩ := List.mem_map.1 h
        simp only [Prod.mk.injEq] at heq
        obtain ⟨rfl, rfl⟩ := heq
        exact ⟨0, a, q, by simp, by simp, hq⟩
      · exact ⟨j + 1, c, q, by simp; omega, by simpa using hc, hq⟩
    · rintro ⟨j, c, q, rfl, hc, hq⟩
      cases j with
      | zero =>
        left
        simp only [List.getElem?_cons_zero, Option.some.injEq] at hc
        subst hc
        exact List.mem_map.2 ⟨(q, m), hq, by simp⟩
      | succ k =>
        right
        exact ⟨k, c, q, by simp; omega, by simpa using hc, hq⟩

theorem mem_locs_iff (n : Node) : ∀ (p : List Nat) (m : Node),
    (p, m) ∈ n.locs ↔ nodeAt n p = some m := by
  induction n using node_induction with
  | htext r d =>
    intro p m
    cases p with
    | nil => simp [Node.locs, nodeAt, eq_comm]
    | cons i q => simp [Node.locs, nodeAt, Node.childNodes]
  | helem r t c s cs ih =>
    intro p m
    cases p with
    | nil =>
      simp only [Node.locs, List.mem_cons, nodeAt, Option.some.injEq, Prod.mk.injEq, true_and]
      constructor
      · rintro (h | h)
        · exact h.symm
        · obtain ⟨j, c2, q, hp, _, _⟩ := (mem_locsList _ _ _ _).1 h
          cases hp
      · intro h
        exact Or.inl h.symm
    | cons i q =>
      simp only [Node.locs, List.mem_cons, Prod.mk.injEq, false_and, false_or, nodeAt,
        Node.childNodes, reduceCtorEq]
      rw [mem_locsList]
      constructor
      · rintro ⟨j, c2, q2, hp, hc, hq⟩
        simp only [List.cons.injEq, zero_add] at hp
        obtain ⟨rfl, rfl⟩ := hp
        rw [hc]
        exact (ih c2 (List.getElem?_mem hc) _ _).1 hq
      · intro h
        cases hc : cs[i]? with
        | none => rw [hc] at h; cases h
        | some c2 =>
          rw [hc] at h
          exact ⟨i, c2, q, by simp, hc, (ih c2 (List.getElem?_mem hc) _ _).2 h⟩


theorem nodeAt_append (n : Node) (p : List Nat) (i : Nat) :
    nodeAt n (p ++ [i]) = (nodeAt n p).bind fun m => m.childNodes[i]? := by
  induction p generalizing n with
  | nil =>
    simp only [List.nil_append, nodeAt, Option.some_bind]
    cases n.childNodes[i]? <;> rfl
  | cons j q ih =>
    simp only [List.cons_append, nodeAt]
    cases n.childNodes[j]? with
    | none => rfl
    | some c => exact ih c

/-- In a tree whose references are distinct, a reference names one place. -/
theorem nodeAt_unique (editor : Node) (hnodup : editor.refs.Nodup) {p q : List Nat}
    {n m : Node} (hp : nodeAt editor p = some n) (hq : nodeAt editor q = some m)
    (href : n.ref = m.ref) : p = q ∧ n = m := by
  have h1 := (mem_locs_iff editor p n).2 hp
  have h2 := (mem_locs_iff editor q m).2 hq
  have h := List.inj_on_of_nodup_map hnodup h1 h2 href
  simp only [Prod.mk.injEq] at h
  exact h

theorem parentNode_eq (editor : Node) (hnodup : editor.refs.Nodup) {p : List Nat} {i : Nat}
    {par n : Node} (hpar : nodeAt editor p = some par) (hn : par.childNodes[i]? = some n) :
    parentNode editor n.ref = some par := by
  unfold parentNode
  have hmem := (mem_locs_iff editor p par).2 hpar
  have hsat : (fun pm : List Nat × Node => pm.2.childNodes.any (·.ref == n.ref)) (p, par) = true := by
    simp only [List.any_eq_true, beq_iff_eq]
    exact ⟨n, List.getElem?_mem hn, rfl⟩
  cases hfind : editor.locs.find? (fun pm => pm.2.childNodes.any (·.ref == n.ref)) with
  | none =>
    have := List.find?_eq_none.1 hfind (p, par) hmem
    exact absurd hsat this
  | some pm =>
    obtain ⟨q, par2⟩ := pm
    have hmem2 := List.mem_of_find?_eq_some hfind
    have hsat2 := List.find?_some hfind
    simp only [List.any_eq_true, beq_iff_eq] at hsat2
    obtain ⟨c, hc, hcref⟩ := hsat2
    obtain ⟨j, hj⟩ := List.getElem?_of_mem hc
    have hq := (mem_locs_iff editor q par2).1 hmem2
    have e1 : nodeAt editor (q ++ [j]) = some c := by rw [nodeAt_append, hq]; exact hj
    have e2 : nodeAt editor (p ++ [i]) = some n := by rw [nodeAt_append, hpar]; exact hn
    have := (nodeAt_unique editor hnodup e1 e2 hcref).1
    have hqp : q = p := (List.append_inj' this rfl).1
    subst hqp
    rw [hq] at hpar
    simpa using hpar

theorem indexOf_eq (editor : Node) (hnodup : editor.refs.Nodup) {p : List Nat} {i : Nat}
    {par n : Node} (hpar : nodeAt editor p = some par) (hn : par.childNodes[i]? = some n) :
    indexOf par.childNodes n.ref = (i : Int) := by
  unfold indexOf
  have e2 : nodeAt editor (p ++ [i]) = some n := by rw [nodeAt_append, hpar]; exact hn
  cases hfind : par.childNodes.findIdx? (·.ref == n.ref) with
  | none =>
    rw [List.findIdx?_eq_none_iff] at hfind
    have := hfind n (List.getElem?_mem hn)
    simp at this
  | some k =>
    rw [List.findIdx?_eq_some_iff_getElem] at hfind
    obtain ⟨hk, hsat, _⟩ := hfind
    simp only [beq_iff_eq] at hsat
    have e1 : nodeAt editor (p ++ [k]) = some (par.childNodes[k]) := by
      rw [nodeAt_append, hpar]; simp [hk]
    have := (nodeAt_unique editor hnodup e1 e2 hsat).1
    have hki : k = i := by simpa using this
    simp [hki]

theorem getNodePathLoop_of_nodeAt (editor : Node) (hnodup : editor.refs.Nodup) :
    ∀ (p : List Nat) (n : Node) (acc : List Int) (fuel : Nat),
      nodeAt editor p = some n → p.length < fuel →
      getNodePathLoop editor fuel (some n.ref) acc = some (.ok (p.map Int.ofNat ++ acc)) := by
  intro p
  induction p using List.reverseRecOn with
  | nil =>
    intro n acc fuel hn hfuel
    simp only [nodeAt, Option.some.injEq] at hn
    subst hn
    cases fuel with
    | zero => simp at hfuel
    | succ f => simp [getNodePathLoop]
  | append_singleton q i ih =>
    intro n acc fuel hn hfuel
    cases fuel with
    | zero => simp at hfuel
    | succ f =>
      have hn2 := hn
      rw [nodeAt_append] at hn2
      cases hpar : nodeAt editor q with
      | none => rw [hpar] at hn2; cases hn2
      | some par =>
        rw [hpar] at hn2
        simp only [Option.some_bind] at hn2
        have hne : n.ref ≠ editor.ref := by
          intro href
          have hroot : nodeAt editor [] = some editor := rfl
          have := (nodeAt_unique editor hnodup hn hroot href).1
          simp at this
        rw [getNodePathLoop, if_neg hne, parentNode_eq editor hnodup hpar hn2]
        simp only
        rw [indexOf_eq editor hnodup hpar hn2, ih par _ f hpar (by simp at hfuel; omega)]
        simp

theorem getNodeFromPath_of_nodeAt (editor : Node) (p : List Nat) (n : Node)
    (hn : nodeAt editor p = some n) :
    getNodeFromPath editor (p.map Int.ofNat) = .node n := by
  have key : ∀ (p : List Nat) (e : Node), nodeAt e p = some n →
      getNodeFromPathLoop (.node e) (p.map Int.ofNat) = .ok (.node n) := by
    intro p
    induction p with
    | nil =>
      intro e he
      simp only [nodeAt, Option.some.injEq] at he
      subst he
      rfl
    | cons i q ih =>
      intro e he
      simp only [nodeAt] at he
      cases hc : e.childNodes[i]? with
      | none => rw [hc] at he; cases he
      | some c =>
        rw [hc] at he
        simp only [List.map_cons, getNodeFromPathLoop, childAt]
        have : ¬ (Int.ofNat i < 0) := by simp
        rw [if_neg this]
        show getNodeFromPathLoop (match e.childNodes[i]? with
          | some c => JsNode.node c
          | none => JsNode.undefined) (q.map Int.ofNat) = _
        rw [hc]
        exact ih c he
  unfold getNodeFromPath
  rw [key p editor hn]

/-- C1. Path round trip: in a document tree whose nodes are distinct objects,
for the root and for every descendant, `getNodePath` returns a path as soon as
its loop is given more rounds than the path is long, and `getNodeFromPath`
applied to that path returns the same node. -/
theorem getNodeFromPath_getNodePath (editor : Node) (hnodup : editor.refs.Nodup)
    (node : Node) (hmem : node ∈ editor.nodes) :
    ∃ path : List Int,
      (∀ fuel, path.length < fuel →
        getNodePath editor fuel (some node.ref) = some (.ok path)) ∧
      getNodeFromPath editor path = .node node := by
  obtain ⟨⟨p, m⟩, hpm, rfl⟩ := List.mem_map.1 hmem
  have hat := (mem_locs_iff editor p m).1 hpm
  refine ⟨p.map Int.ofNat, ?_, getNodeFromPath_of_nodeAt editor p m hat⟩
  intro fuel hfuel
  have := getNodePathLoop_of_nodeAt editor hnodup p m [] fuel hat (by simpa using hfuel)
  simpa [getNodePath] using this

theorem getNodeFromPath_getNodePath_witness :
    sampleEditor.refs.Nodup ∧ Node.text 5 "x" ∈ sampleEditor.nodes ∧
    ∃ path : List Int,
      (∀ fuel, path.length < fuel →
        getNodePath sampleEditor fuel (some (Node.text 5 "x").ref) = some (.ok path)) ∧
      getNodeFromPath sampleEditor path = .node (Node.text 5 "x") :=
  ⟨by decide, by decide,
    getNodeFromPath_getNodePath sampleEditor (by decide) (Node.text 5 "x") (by decide)⟩


/-! ### The cursor overlay -/

/-- C9. When the user already has a marker and the path does not resolve to a
node, `updateCursor` returns without an exception and leaves the whole state
as it was: no marker is moved. -/
theorem updateCursor_unresolved (L : Layout) (username : String) (position : Position)
    (s : Client) (ref : Nat) (hcur : cursorsGet s.cursors username = .element ref)
    (hpath : (getNodeFromPath s.editor position.path).isNode = false) :
    updateCursor L username position s = (s, none) := by
  unfold updateCursor obtainCursor
  rw [hcur]
  simp only
  cases h : getNodeFromPath s.editor position.path with
  | null => rfl
  | undefined => rfl
  | node n => rw [h] at hpath; cases hpath

theorem updateCursor_unresolved_witness :
    cursorsGet (onmessage sampleLayout false sampleMessage sampleClient).1.cursors "bob"
      = .element 5 ∧
    (getNodeFromPath (onmessage sampleLayout false sampleMessage sampleClient).1.editor
      (Position.mk [0, 7] 0).path).isNode = false ∧
    updateCursor sampleLayout "bob" (Position.mk [0, 7] 0)
      (onmessage sampleLayout false sampleMessage sampleClient).1
      = ((onmessage sampleLayout false sampleMessage sampleClient).1, none) :=
  ⟨by decide, by decide,
    updateCursor_unresolved sampleLayout "bob" (Position.mk [0, 7] 0) _ 5 (by decide)
      (by decide)⟩

/-- C7, as the code has it. For a user without a marker, `updateCursor` creates
the marker, stores it in `cursors` and appends it to the editor before the
path is resolved; when the path then does not resolve to a node (in the editor
that now holds the marker), the function returns without an exception and the
marker stays, with its background colour only. -/
theorem updateCursor_creates_marker (L : Layout) (username : String) (position : Position)
    (s : Client) (hcur : cursorsGet s.cursors username = .undefined)
    (hpath : (getNodeFromPath
      (s.editor.appendChild (createCursor username s.nextRef)) position.path).isNode = false) :
    updateCursor L username position s =
      ({ s with
         editor := s.editor.appendChild (createCursor username s.nextRef)
         nextRef := s.nextRef + 1
         cursors := (username, s.nextRef) :: s.cursors }, none) ∧
    cursorsGet ((username, s.nextRef) :: s.cursors) username = .element s.nextRef := by
  constructor
  · unfold updateCursor obtainCursor
    rw [hcur]
    simp only
    cases h : getNodeFromPath (s.editor.appendChild (createCursor username s.nextRef))
        position.path with
    | null => rfl
    | undefined => rfl
    | node n => rw [h] at hpath; cases hpath
  · simp [cursorsGet, List.lookup]

theorem updateCursor_creates_marker_witness :
    cursorsGet sampleClient.cursors "bob" = .undefined ∧
    (getNodeFromPath
      (sampleClient.editor.appendChild (createCursor "bob" sampleClient.nextRef))
      (Position.mk [5] 0).path).isNode = false ∧
    (updateCursor sampleLayout "bob" (Position.mk [5] 0) sampleClient =
      ({ sampleClient with
         editor := sampleClient.editor.appendChild (createCursor "bob" sampleClient.nextRef)
         nextRef := sampleClient.nextRef + 1
         cursors := ("bob", sampleClient.nextRef) :: sampleClient.cursors }, none) ∧
    cursorsGet (("bob", sampleClient.nextRef) :: sampleClient.cursors) "bob"
      = .element sampleClient.nextRef) :=
  ⟨by decide, by decide,
    updateCursor_creates_marker sampleLayout "bob" (Position.mk [5] 0) sampleClient
      (by decide) (by decide)⟩

/-- C7, as the spec has it, fails: bob has no marker and the path [5] does not
resolve, yet `updateCursor` leaves a marker for bob in `cursors` and one more
child in the editor. -/
theorem updateCursor_marker_without_success :
    cursorsGet sampleClient.cursors "bob" = .undefined ∧
    getNodeFromPath sampleClient.editor [5] = .undefined ∧
    cursorsGet (updateCursor sampleLayout "bob" (Position.mk [5] 0) sampleClient).1.cursors
      "bob" = .element 3 ∧
    sampleClient.editor.childNodes.length = 1 ∧
    (updateCursor sampleLayout "bob" (Position.mk [5] 0) sampleClient).1.editor.childNodes
      = sampleClient.editor.childNodes ++ [createCursor "bob" 3] := by
  decide


/-! ### The channel -/

theorem setInnerHTML_sent (content : List Html) (s : Client) :
    (s.setInnerHTML content).sent = s.sent := rfl

theorem autosaveListener_sent (s : Client) : (autosaveListener s).sent = s.sent := by
  unfold autosaveListener
  cases s.autosaveTimeout with
  | none => rfl
  | some a =>
    cases a with
    | none => rfl
    | some id =>
      simp only [Client.setTimeout, Client.clearTimeout]
      split <;> rfl

theorem autosaveListener_isUpdating (s : Client) :
    (autosaveListener s).isUpdating = s.isUpdating := by
  unfold autosaveListener
  cases s.autosaveTimeout with
  | none => rfl
  | some a =>
    cases a with
    | none => rfl
    | some id =>
      simp only [Client.setTimeout, Client.clearTimeout]
      split <;> rfl

/-- While `isUpdating` is true the sending listener returns at once. -/
theorem inputListener_suppressed (s : Client) (h : s.isUpdating = true) :
    inputListener s = s := by
  simp [inputListener, h]

/-- Without suppression, and with no selection, the sending listener sends the
content with a null cursor position. -/
theorem inputListener_sends (s : Client) (h : s.isUpdating = false)
    (hsel : s.selection = none) :
    (inputListener s).sent =
      s.sent ++ [EditMessage.mk "edit" (innerHTML s.editor) s.currentUser none] := by
  simp [inputListener, h, getCursorPosition, hsel]

theorem updateCursor_sent (L : Layout) (username : String) (position : Position)
    (s : Client) : (updateCursor L username position s).1.sent = s.sent := by
  unfold updateCursor obtainCursor
  cases cursorsGet s.cursors username <;> simp only <;>
    split <;> try rfl
  all_goals split <;> try rfl

theorem showUserTypingIndicator_sent (username : String) (s : Client) :
    (showUserTypingIndicator username s).sent = s.sent := by
  unfold showUserTypingIndicator
  cases queryIndicator username s with
  | none => rfl
  | some b =>
    cases hb : b.timeoutId with
    | none => simp [hb, Client.setTimeout]
    | some id => simp [hb, Client.setTimeout, Client.clearTimeout]

theorem replaceContent_sent (firesInput : Bool) (content : List Html) (s : Client) :
    (replaceContent firesInput content s).sent = s.sent := by
  unfold replaceContent
  split
  · cases firesInput with
    | false => rfl
    | true =>
      simp only [if_true, dispatchInput]
      rw [inputListener_suppressed _ rfl]
      exact autosaveListener_sent _
  · rfl

/-- C3. No feedback loop: handling an inbound message never calls
`socket.send`, whether or not the assignment to `editor.innerHTML` dispatches
an `input` event; for the sending listener returns at once whenever
`isUpdating` is true. -/
theorem onmessage_sends_nothing (L : Layout) (firesInput : Bool) (data : EditMessage)
    (s : Client) :
    (onmessage L firesInput data s).1.sent = s.sent ∧
    ∀ t : Client, t.isUpdating = true → inputListener t = t := by
  refine ⟨?_, inputListener_suppressed⟩
  unfold onmessage
  split
  · cases hc : data.cursorPosition with
    | none =>
      simp only
      rw [showUserTypingIndicator_sent]
      exact replaceContent_sent _ _ _
    | some p =>
      simp only
      split
      · simp only
        rw [updateCursor_sent]
        exact replaceContent_sent _ _ _
      · simp only
        rw [showUserTypingIndicator_sent, updateCursor_sent]
        exact replaceContent_sent _ _ _
  · rfl


/-! ### Parsing, serialising and styling -/

/-- Induction over a serialised tree. -/
theorem html_induction {P : Html → Prop} (htext : ∀ d, P (.text d))
    (helem : ∀ t c s cs, (∀ h ∈ cs, P h) → P (.element t c s cs)) (h : Html) : P h :=
  @Html.rec P (fun cs => ∀ h ∈ cs, P h) htext helem
    (fun _ h => absurd h (List.not_mem_nil _))
    (fun _ _ hhead htail m hm => by
      rcases List.mem_cons.1 hm with h | h
      · exact h ▸ hhead
      · exact htail m h) h

theorem mem_refs_element (x r : Nat) (t c : String) (s : List (String × String))
    (cs : List Node) :
    x ∈ (Node.element r t c s cs).refs ↔ x = r ∨ ∃ n ∈ cs, x ∈ n.refs := by
  simp only [Node.refs, Node.locs, List.map_cons, List.mem_cons, Node.ref, List.mem_map,
    Prod.exists]
  constructor
  · rintro (h | ⟨p, m, hm, rfl⟩)
    · exact Or.inl h
    · obtain ⟨j, n, q, _, hn, hq⟩ := (mem_locsList _ _ _ _).1 hm
      exact Or.inr ⟨n, List.getElem?_mem hn, q, m, hq, rfl⟩
  · rintro (h | ⟨n, hn, q, m, hq, rfl⟩)
    · exact Or.inl h
    · obtain ⟨j, hj⟩ := List.getElem?_of_mem hn
      exact Or.inr ⟨(0 + j) :: q, m, (mem_locsList _ _ _ _).2 ⟨j, n, q, rfl, hj, hq⟩, rfl⟩

theorem ref_mem_refs (n : Node) : n.ref ∈ n.refs := by
  cases n with
  | text r d => simp [Node.refs, Node.locs, Node.ref]
  | element r t c s cs => exact (mem_refs_element _ _ _ _ _ _).2 (Or.inl rfl)

theorem createList_bounds (hs : List Html)
    (ih : ∀ h ∈ hs, ∀ k, k < (Html.create h k).2 ∧
      ∀ r ∈ (Html.create h k).1.refs, k ≤ r ∧ r < (Html.create h k).2) :
    ∀ k, k ≤ (Html.createList hs k).2 ∧
      ∀ n ∈ (Html.createList hs k).1, ∀ r ∈ n.refs,
        k ≤ r ∧ r < (Html.createList hs k).2 := by
  induction hs with
  | nil => intro k; simp [Html.createList]
  | cons a as iha =>
    intro k
    have ha := ih a (List.mem_cons_self _ _) k
    have has := iha (fun h hh => ih h (List.mem_cons_of_mem _ hh)) (Html.create a k).2
    simp only [Html.createList, List.mem_cons]
    refine ⟨by omega, ?_⟩
    rintro n (rfl | hn) r hr
    · have := ha.2 r hr
      omega
    · have := has.2 n hn r hr
      omega

/-- The references handed out by the parser start at `k` and end before the
next free reference. -/
theorem create_bounds (h : Html) : ∀ k, k < (Html.create h k).2 ∧
    ∀ r ∈ (Html.create h k).1.refs, k ≤ r ∧ r < (Html.create h k).2 := by
  induction h using html_induction with
  | htext d => intro k; simp [Html.create, Node.refs, Node.locs, Node.ref]
  | helem t c s cs ih =>
    intro k
    have hl := createList_bounds cs ih (k + 1)
    simp only [Html.create]
    refine ⟨by omega, ?_⟩
    intro r hr
    rw [mem_refs_element] at hr
    rcases hr with rfl | ⟨n, hn, hrn⟩
    · omega
    · have := hl.2 n hn r hrn
      omega

theorem createList_bounds_all (hs : List Html) (k : Nat) :
    k ≤ (Html.createList hs k).2 ∧
      ∀ n ∈ (Html.createList hs k).1, ∀ r ∈ n.refs,
        k ≤ r ∧ r < (Html.createList hs k).2 :=
  createList_bounds hs (fun h _ => create_bounds h) k


/-! ### The content after an inbound message -/

theorem autosaveListener_dom (s : Client) :
    (autosaveListener s).editor = s.editor ∧ (autosaveListener s).nextRef = s.nextRef ∧
    (autosaveListener s).cursors = s.cursors := by
  unfold autosaveListener
  cases s.autosaveTimeout with
  | none => exact ⟨rfl, rfl, rfl⟩
  | some a =>
    cases a with
    | none => exact ⟨rfl, rfl, rfl⟩
    | some id =>
      simp only [Client.setTimeout, Client.clearTimeout]
      split <;> exact ⟨rfl, rfl, rfl⟩

theorem childNodes_withChildren (n : Node) (cs : List Node) (h : n.isElement = true) :
    (n.withChildren cs).childNodes = cs := by
  cases n with
  | text r d => cases h
  | element r t c s cs0 => rfl

theorem child_refs_lt (s : Client) (hwf : s.WellFormed) :
    ∀ n ∈ s.editor.childNodes, ∀ r ∈ n.refs, r < s.nextRef := by
  intro n hn r hr
  obtain ⟨_, h2, _⟩ := hwf
  cases he : s.editor with
  | text r0 d => rw [he] at hn; cases hn
  | element r0 t c st cs =>
    rw [he] at hn h2
    exact h2 r ((mem_refs_element _ _ _ _ _ _).2 (Or.inr ⟨n, hn, hr⟩))

/-- The editor after `updateCursor`: the editor after its first block, with
at most the style of the marker assigned. -/
theorem updateCursor_editor (L : Layout) (username : String) (position : Position)
    (s : Client) :
    (updateCursor L username position s).1.editor = (obtainCursor username s).1.editor ∨
    ∃ ref decls, (obtainCursor username s).2 = .element ref ∧
      (updateCursor L username position s).1.editor =
        (obtainCursor username s).1.editor.setStyle ref decls := by
  unfold updateCursor
  simp only
  split
  · exact Or.inl rfl
  · exact Or.inl rfl
  · split
    · exact Or.inl rfl
    · split
      · rename_i ref href
        exact Or.inr ⟨ref, _, href, rfl⟩
      · exact Or.inl rfl

theorem isElement_withChildren (n : Node) (cs : List Node) :
    (n.withChildren cs).isElement = n.isElement := by
  cases n <;> rfl

/-- The case that the statement above leaves out: the content of the message
is the current content, marker of bob included, and the message moves the
marker; the content of the editor is then no longer that of the message. -/
theorem edit_moves_marker_in_content :
    cursorsGet (onmessage steppedLayout false sampleMessage sampleClient).1.cursors "bob"
      = .element 5 ∧
    innerHTML (onmessage steppedLayout false
        (EditMessage.mk "edit"
          (innerHTML (onmessage steppedLayout false sampleMessage sampleClient).1.editor)
          "bob" (some (Position.mk [0] 0)))
        (onmessage steppedLayout false sampleMessage sampleClient).1).1.editor ≠
      innerHTML (onmessage steppedLayout false sampleMessage sampleClient).1.editor := by
  decide

/-- C6, evaluated: the first message of bob creates his marker in the editor;
the next message replaces the content of the editor, the marker is no longer
in the editor, and since `cursors` still holds it, it is not appended again. -/
theorem marker_detached_by_next_edit :
    cursorsGet (onmessage sampleLayout false sampleMessage sampleClient).1.cursors "bob"
      = .element 5 ∧
    5 ∈ (onmessage sampleLayout false sampleMessage sampleClient).1.editor.refs ∧
    cursorsGet (onmessage sampleLayout false sampleMessage
      (onmessage sampleLayout false sampleMessage sampleClient).1).1.cursors "bob"
      = .element 5 ∧
    5 ∉ (onmessage sampleLayout false sampleMessage
      (onmessage sampleLayout false sampleMessage sampleClient).1).1.editor.refs ∧
    innerHTML (onmessage sampleLayout false sampleMessage
      (onmessage sampleLayout false sampleMessage sampleClient).1).1.editor
      = [Html.element "p" "" [] [Html.text "bye"]] := by
  decide

/-! ### The event loop -/

theorem fireDue_idle (s : Client) (h : ∀ t ∈ s.timers, s.now < t.due) : fireDue s = s := by
  unfold fireDue
  have h1 : s.timers.filter (fun t => t.due ≤ s.now) = [] := by
    rw [List.filter_eq_nil_iff]
    intro t ht
    have := h t ht
    simp only [decide_eq_true_eq]
    omega
  have h2 : s.timers.filterMap (rearm s.now) = s.timers := by
    have : ∀ l : List Timer, (∀ t ∈ l, s.now < t.due) → l.filterMap (rearm s.now) = l := by
      intro l
      induction l with
      | nil => intro _; rfl
      | cons a as ih =>
        intro hl
        have ha := hl a (List.mem_cons_self _ _)
        have hr : rearm s.now a = some a := by
          unfold rearm
          rw [if_neg (by omega)]
        rw [List.filterMap_cons, hr]
        simp only
        rw [ih fun t ht => hl t (List.mem_cons_of_mem _ ht)]
    exact this _ h
  rw [h1, h2]
  rfl

/-- While no timer comes due, time passes and nothing else changes. -/
theorem advance_idle (n : Nat) (s : Client) (h : ∀ t ∈ s.timers, s.now + n < t.due) :
    advance n s = { s with now := s.now + n } := by
  induction n generalizing s with
  | zero => rfl
  | succ m ih =>
    have ht : tick s = { s with now := s.now + 1 } := by
      unfold tick
      apply fireDue_idle
      intro t ht
      have := h t ht
      simp only
      omega
    rw [advance, ht, ih]
    · simp only [Nat.add_assoc, Nat.add_comm 1 m]
    · intro t ht
      have := h t ht
      simp only
      omega

theorem advance_add (m n : Nat) (s : Client) :
    advance (m + n) s = advance n (advance m s) := by
  induction m generalizing s with
  | zero => simp [advance]
  | succ k ih =>
    rw [Nat.succ_add, advance, advance, ih]

/-- C5, evaluated: a badge for alice is made at 0ms and her second event comes
at 1000ms. The timer armed at 0ms was never stored in `dataset.timeoutId`, so
the second call cannot clear it: it fires at 2000ms and removes the badge,
which is there at 1999ms and gone at 2000ms and at 2500ms. -/
theorem typing_badge_removed_early :
    (queryIndicator "alice" (advanceTo 1000 (showUserTypingIndicator "alice"
      (Client.initial "me")))).isSome = true ∧
    (showUserTypingIndicator "alice" (advanceTo 1000 (showUserTypingIndicator "alice"
      (Client.initial "me")))).timers =
        [Timer.mk 1 2000 (.removeTyping "alice") none,
         Timer.mk 2 3000 (.removeTyping "alice") none] ∧
    (queryIndicator "alice" (advanceTo 1999 (showUserTypingIndicator "alice"
      (advanceTo 1000 (showUserTypingIndicator "alice" (Client.initial "me")))))).isSome
      = true ∧
    queryIndicator "alice" (advanceTo 2000 (showUserTypingIndicator "alice"
      (advanceTo 1000 (showUserTypingIndicator "alice" (Client.initial "me"))))) = none ∧
    queryIndicator "alice" (advanceTo 2500 (showUserTypingIndicator "alice"
      (advanceTo 1000 (showUserTypingIndicator "alice" (Client.initial "me"))))) = none := by
  have e1 : advanceTo 1000 (showUserTypingIndicator "alice" (Client.initial "me")) =
      { showUserTypingIndicator "alice" (Client.initial "me") with now := 1000 } :=
    advance_idle 1000 _ (by decide)
  rw [e1]
  have e2 : advanceTo 1999 (showUserTypingIndicator "alice"
      { showUserTypingIndicator "alice" (Client.initial "me") with now := 1000 }) =
      { showUserTypingIndicator "alice"
        { showUserTypingIndicator "alice" (Client.initial "me") with now := 1000 } with
        now := 1999 } :=
    advance_idle 999 _ (by decide)
  have e3 : advanceTo 2000 (showUserTypingIndicator "alice"
      { showUserTypingIndicator "alice" (Client.initial "me") with now := 1000 }) =
      tick { showUserTypingIndicator "alice"
        { showUserTypingIndicator "alice" (Client.initial "me") with now := 1000 } with
        now := 1999 } := by
    show advance (999 + 1) _ = _
    rw [advance_add, ← e2]
    rfl
  have e4 : advanceTo 2500 (showUserTypingIndicator "alice"
      { showUserTypingIndicator "alice" (Client.initial "me") with now := 1000 }) =
      { tick { showUserTypingIndicator "alice"
        { showUserTypingIndicator "alice" (Client.initial "me") with now := 1000 } with
        now := 1999 } with now := 2500 } := by
    show advance (1000 + 500) _ = _
    rw [advance_add]
    have : advance 1000 (showUserTypingIndicator "alice"
      { showUserTypingIndicator "alice" (Client.initial "me") with now := 1000 }) = _ := e3
    rw [this]
    exact advance_idle 500 _ (by decide)
  rw [e2, e3, e4]
  decide


/-! ### Autosave -/

theorem runCallback_frame (s : Client) (t : Timer) :
    (runCallback s t).timers = s.timers ∧ (runCallback s t).now = s.now ∧
    (runCallback s t).nextTimerId = s.nextTimerId ∧
    (runCallback s t).autosaveTimeout = s.autosaveTimeout ∧
    (runCallback s t).editor = s.editor ∧
    (runCallback s t).saves = s.saves ++
      (if t.callback = .autosaveDocument then [Save.mk s.now t.id (innerHTML s.editor)]
       else []) := by
  unfold runCallback
  cases hc : t.callback with
  | autosaveDocument => simp [autosaveDocument]
  | removeTyping u =>
    simp only [removeTyping]
    cases queryIndicator u s <;> simp

theorem foldl_runCallback_frame (l : List Timer) (s : Client) :
    (l.foldl runCallback s).timers = s.timers ∧ (l.foldl runCallback s).now = s.now ∧
    (l.foldl runCallback s).nextTimerId = s.nextTimerId ∧
    (l.foldl runCallback s).autosaveTimeout = s.autosaveTimeout ∧
    (l.foldl runCallback s).editor = s.editor ∧
    (l.foldl runCallback s).saves = s.saves ++
      (l.filter fun t => t.callback == .autosaveDocument).map
        fun t => Save.mk s.now t.id (innerHTML s.editor) := by
  induction l generalizing s with
  | nil => simp
  | cons a as ih =>
    obtain ⟨h1, h2, h3, h4, h5, h6⟩ := runCallback_frame s a
    obtain ⟨i1, i2, i3, i4, i5, i6⟩ := ih (runCallback s a)
    rw [List.foldl_cons]
    refine ⟨i1.trans h1, i2.trans h2, i3.trans h3, i4.trans h4, i5.trans h5, ?_⟩
    rw [i6, h6, h2, h5]
    by_cases hc : a.callback = .autosaveDocument
    · simp [hc, List.filter_cons]
    · simp [hc, List.filter_cons]

theorem rearm_callback (now : Nat) (t u : Timer) (h : rearm now t = some u) :
    u.callback = t.callback ∧ u.id = t.id ∧ u.period = t.period := by
  unfold rearm at h
  split at h
  · cases hp : t.period with
    | none => rw [hp] at h; cases h
    | some p =>
      rw [hp] at h
      simp only [Option.some.injEq] at h
      subst h
      exact ⟨rfl, rfl, hp.symm ▸ rfl⟩
  · simp only [Option.some.injEq] at h
    subst h
    exact ⟨rfl, rfl, rfl⟩

theorem filter_filterMap_rearm (now : Nat) (l : List Timer) :
    (l.filterMap (rearm now)).filter (fun t => t.callback == .autosaveDocument) =
      (l.filter fun t => t.callback == .autosaveDocument).filterMap (rearm now) := by
  induction l with
  | nil => rfl
  | cons a as ih =>
    rw [List.filterMap_cons]
    cases hr : rearm now a with
    | none =>
      simp only
      rw [ih, List.filter_cons]
      split
      · rw [List.filterMap_cons, hr]
      · rfl
    | some u =>
      simp only
      have hu := (rearm_callback now a u hr).1
      rw [List.filter_cons, List.filter_cons, hu, ih]
      split
      · rw [List.filterMap_cons, hr]
      · rfl

/-- One millisecond, seen from the autosave timers: those that are due save
and are rearmed or dropped; nothing else of the autosave state changes. -/
theorem tick_autosave (s : Client) :
    autoTimers (tick s) = (autoTimers s).filterMap (rearm (s.now + 1)) ∧
    (tick s).now = s.now + 1 ∧ (tick s).nextTimerId = s.nextTimerId ∧
    (tick s).autosaveTimeout = s.autosaveTimeout ∧
    (tick s).saves = s.saves ++
      ((autoTimers s).filter fun t => t.due ≤ s.now + 1).map
        fun t => Save.mk (s.now + 1) t.id (innerHTML s.editor) := by
  unfold tick fireDue
  obtain ⟨h1, h2, h3, h4, _, h6⟩ := foldl_runCallback_frame
    (List.filter (fun t => decide (t.due ≤ s.now + 1)) s.timers)
    { s with now := s.now + 1, timers := List.filterMap (rearm (s.now + 1)) s.timers }
  refine ⟨?_, h2, h3, h4, ?_⟩
  · unfold autoTimers
    simp only at h1 ⊢
    rw [h1]
    exact filter_filterMap_rearm _ _
  · simp only at h6 ⊢
    rw [h6]
    unfold autoTimers
    rw [List.filter_filter, List.filter_filter]
    simp only [Bool.and_comm]


theorem filterMap_rearm_timeouts (now : Nat) (l : List Timer)
    (h : ∀ t ∈ l, t.period = none) :
    l.filterMap (rearm now) = l.filter fun t => now < t.due := by
  induction l with
  | nil => rfl
  | cons a as ih =>
    have ha := h a (List.mem_cons_self _ _)
    rw [List.filterMap_cons, List.filter_cons, ih fun t ht => h t (List.mem_cons_of_mem _ ht)]
    unfold rearm
    by_cases hd : a.due ≤ now
    · rw [if_pos hd, ha]
      simp only
      rw [if_neg (by simp; omega)]
    · rw [if_neg hd]
      simp only
      rw [if_pos (by simp; omega)]

theorem saves_of_pending (i0 n : Nat) (c : List Html) (l : List Timer)
    (h : ∀ t ∈ l, i0 < t.id) :
    ((l.map fun t => Save.mk n t.id c).filter fun v => v.timer == i0) = [] ∧
    ((l.map fun t => Save.mk n t.id c).filter fun v => v.timer != i0).map (·.time) =
      l.map fun _ => n := by
  induction l with
  | nil => exact ⟨rfl, rfl⟩
  | cons a as ih =>
    have ha := h a (List.mem_cons_self _ _)
    obtain ⟨i1, i2⟩ := ih fun t ht => h t (List.mem_cons_of_mem _ ht)
    have hne : ¬ a.id = i0 := by omega
    constructor
    · rw [List.map_cons, List.filter_cons]
      simp only [beq_iff_eq, hne, if_false]
      exact i1
    · rw [List.map_cons, List.filter_cons]
      simp only [bne_iff_ne, ne_eq, hne, not_false_eq_true, if_true, List.map_cons]
      rw [i2]

/-- One millisecond in terms of the autosave state: the timeouts that come due
leave the pending ones and save once each, at that time. -/
theorem tick_state (i0 t0 : Nat) (pending : List Timer) (fired : List Nat) (s : Client)
    (h : AutosaveState i0 t0 pending fired s) :
    AutosaveState i0 t0 (pending.filter fun t => s.now + 1 < t.due)
      (fired ++ (pending.filter fun t => t.due ≤ s.now + 1).map fun _ => s.now + 1)
      (tick s) := by
  obtain ⟨k, hauto, hlo, hhi, hint, hdeb, hfresh, hpend⟩ := h
  obtain ⟨a1, a2, a3, a4, a5⟩ := tick_autosave s
  have hpf := filterMap_rearm_timeouts (s.now + 1) pending fun t ht => (hpend t ht).1
  have hps := saves_of_pending i0 (s.now + 1) (innerHTML s.editor)
    (pending.filter fun t => t.due ≤ s.now + 1)
    (fun t ht => (hpend t (List.mem_of_mem_filter ht)).2.1)
  have hpend2 : ∀ t ∈ pending.filter (fun t => s.now + 1 < t.due),
      t.period = none ∧ i0 < t.id ∧ (tick s).now < t.due := by
    intro t ht
    have h1 := hpend t (List.mem_of_mem_filter ht)
    have h2 := (List.mem_filter.1 ht).2
    simp only [decide_eq_true_eq] at h2
    rw [a2]
    exact ⟨h1.1, h1.2.1, h2⟩
  by_cases hdue : t0 + 10000 * (k + 1) ≤ s.now + 1
  · refine ⟨k + 1, ?_, ?_, ?_, ?_, ?_, ?_, hpend2⟩
    · rw [a1, hauto, List.filterMap_cons, hpf]
      simp only [rearm, hdue, if_true]
      have e : t0 + 10000 * (k + 1) + 10000 = t0 + 10000 * (k + 1 + 1) := by omega
      rw [e]
    · rw [a2]; omega
    · rw [a2]; omega
    · unfold intervalSaves at hint ⊢
      rw [a5, hauto, List.filter_cons]
      simp only [hdue, decide_True, if_true, List.map_cons, List.filter_append, List.map_append,
        List.filter_cons, beq_self_eq_true, List.map_cons]
      rw [hint, hps.1, List.range_succ]
      simp only [List.map_append, List.map_cons, List.map_nil, List.append_nil,
        List.filter_nil]
      have e : s.now + 1 = t0 + 10000 * (k + 1) := by omega
      rw [e]
    · unfold debounceSaves at hdeb ⊢
      rw [a5, hauto, List.filter_cons]
      simp only [hdue, decide_True, if_true, List.map_cons, List.filter_append, List.map_append,
        List.filter_cons, bne_self_eq_false, Bool.false_eq_true, if_false]
      rw [hdeb, hps.2]
    · rw [a3]; exact hfresh
  · refine ⟨k, ?_, ?_, ?_, ?_, ?_, ?_, hpend2⟩
    · rw [a1, hauto, List.filterMap_cons, hpf]
      simp only [rearm, hdue, if_false]
    · rw [a2]; omega
    · rw [a2]; omega
    · unfold intervalSaves at hint ⊢
      rw [a5, hauto, List.filter_cons]
      simp only [hdue, decide_False, Bool.false_eq_true, if_false, List.filter_append,
        List.map_append]
      rw [hint, hps.1]
      simp
    · unfold debounceSaves at hdeb ⊢
      rw [a5, hauto, List.filter_cons]
      simp only [hdue, decide_False, Bool.false_eq_true, if_false, List.filter_append,
        List.map_append]
      rw [hdeb, hps.2]
    · rw [a3]; exact hfresh


theorem advance_now (n : Nat) (s : Client) :
    (advance n s).now = s.now + n ∧ (advance n s).autosaveTimeout = s.autosaveTimeout := by
  induction n generalizing s with
  | zero => exact ⟨rfl, rfl⟩
  | succ m ih =>
    obtain ⟨_, a2, _, a4, _⟩ := tick_autosave s
    obtain ⟨i1, i2⟩ := ih (tick s)
    rw [advance]
    exact ⟨by rw [i1, a2]; omega, by rw [i2, a4]⟩

/-- Time passes without a pending autosave timeout coming due: the autosave
state stays. -/
theorem advance_keep (i0 t0 : Nat) (pending : List Timer) (fired : List Nat) (n : Nat)
    (s : Client) (h : AutosaveState i0 t0 pending fired s)
    (hlate : ∀ t ∈ pending, s.now + n < t.due) :
    AutosaveState i0 t0 pending fired (advance n s) := by
  induction n generalizing s with
  | zero => exact h
  | succ m ih =>
    have ht := tick_state i0 t0 pending fired s h
    have e1 : pending.filter (fun t => s.now + 1 < t.due) = pending := by
      rw [List.filter_eq_self]
      intro t ht
      have := hlate t ht
      simp only [decide_eq_true_eq]
      omega
    have e2 : pending.filter (fun t => t.due ≤ s.now + 1) = [] := by
      rw [List.filter_eq_nil_iff]
      intro t ht
      have := hlate t ht
      simp only [decide_eq_true_eq]
      omega
    rw [e1, e2] at ht
    simp only [List.map_nil, List.append_nil] at ht
    rw [advance]
    apply ih (tick s) ht
    intro t htp
    have := hlate t htp
    rw [(tick_autosave s).2.1]
    omega

/-- Time passes beyond the due time of the one pending autosave timeout: it
has saved once, at its due time, and nothing is pending. -/
theorem advance_fire (i0 t0 : Nat) (p : Timer) (fired : List Nat) (n : Nat) (s : Client)
    (h : AutosaveState i0 t0 [p] fired s) (hdue : p.due ≤ s.now + n) :
    AutosaveState i0 t0 [] (fired ++ [p.due]) (advance n s) := by
  induction n generalizing s with
  | zero =>
    obtain ⟨k, _, _, _, _, _, _, hpend⟩ := h
    have := (hpend p (List.mem_singleton.2 rfl)).2.2
    omega
  | succ m ih =>
    have ht := tick_state i0 t0 [p] fired s h
    have hlt : s.now < p.due := by
      obtain ⟨k, _, _, _, _, _, _, hpend⟩ := h
      exact (hpend p (List.mem_singleton.2 rfl)).2.2
    rw [advance]
    by_cases hnow : p.due ≤ s.now + 1
    · have e1 : [p].filter (fun t => s.now + 1 < t.due) = [] := by
        simp [List.filter_cons]; omega
      have e2 : [p].filter (fun t => t.due ≤ s.now + 1) = [p] := by
        simp [List.filter_cons]; omega
      rw [e1, e2] at ht
      simp only [List.map_cons, List.map_nil] at ht
      have e3 : s.now + 1 = p.due := by omega
      rw [e3] at ht
      exact advance_keep i0 t0 [] (fired ++ [p.due]) m (tick s) ht
        (fun t ht => absurd ht (List.not_mem_nil _))
    · have e1 : [p].filter (fun t => s.now + 1 < t.due) = [p] := by
        simp [List.filter_cons]; omega
      have e2 : [p].filter (fun t => t.due ≤ s.now + 1) = [] := by
        simp [List.filter_cons]; omega
      rw [e1, e2] at ht
      simp only [List.map_nil, List.append_nil] at ht
      apply ih (tick s) ht
      rw [(tick_autosave s).2.1]
      omega

theorem inputListener_frame (s : Client) :
    (inputListener s).timers = s.timers ∧ (inputListener s).saves = s.saves ∧
    (inputListener s).now = s.now ∧ (inputListener s).nextTimerId = s.nextTimerId ∧
    (inputListener s).autosaveTimeout = s.autosaveTimeout := by
  unfold inputListener
  split
  · split <;> exact ⟨rfl, rfl, rfl, rfl, rfl⟩
  · exact ⟨rfl, rfl, rfl, rfl, rfl⟩

/-- The timers left by `clearTimeout` of the value of `autosaveTimeout`, when
that is a timer id. -/
theorem autosaveListener_timers (u : Client) (a : Option Nat)
    (ha : u.autosaveTimeout = some a) (hpos : ∀ d, a = some d → d ≠ 0) :
    (autosaveListener u).timers =
      (a.elim u.timers fun d => u.timers.filter fun t => t.id != d) ++
      [Timer.mk u.nextTimerId (u.now + 5000) .autosaveDocument none] ∧
    (autosaveListener u).saves = u.saves ∧ (autosaveListener u).now = u.now ∧
    (autosaveListener u).nextTimerId = u.nextTimerId + 1 ∧
    (autosaveListener u).autosaveTimeout = some (some u.nextTimerId) := by
  unfold autosaveListener
  rw [ha]
  cases a with
  | none => exact ⟨rfl, rfl, rfl, rfl, rfl⟩
  | some d =>
    have hd : (d != 0) = true := by simpa using hpos d rfl
    simp only [hd, if_true, Client.setTimeout, Client.clearTimeout, Option.elim, and_self]

/-- A local input, seen from the timers: the timeout stored in
`autosaveTimeout` is cleared and a new one, due in 5000ms, is stored. -/
theorem localInput_timers (cs : List Node) (sel : Option (Nat × Nat)) (s : Client)
    (a : Option Nat) (ha : s.autosaveTimeout = some a) (hpos : ∀ d, a = some d → d ≠ 0) :
    (localInput cs sel s).timers =
      (a.elim s.timers fun d => s.timers.filter fun t => t.id != d) ++
      [Timer.mk s.nextTimerId (s.now + 5000) .autosaveDocument none] ∧
    (localInput cs sel s).saves = s.saves ∧ (localInput cs sel s).now = s.now ∧
    (localInput cs sel s).nextTimerId = s.nextTimerId + 1 ∧
    (localInput cs sel s).autosaveTimeout = some (some s.nextTimerId) := by
  unfold localInput dispatchInput
  simp only
  obtain ⟨f1, f2, f3, f4, f5⟩ := inputListener_frame
    { s with
      editor := s.editor.withChildren cs
      detached := s.detached ++ s.editor.childNodes.filter
        fun n => n.ref ∉ (s.editor.withChildren cs).refs
      nextRef := max s.nextRef ((s.editor.withChildren cs).refs.foldl max 0 + 1)
      selection := sel }
  simp only at f1 f2 f3 f4 f5
  obtain ⟨g1, g2, g3, g4, g5⟩ := autosaveListener_timers _ a (f5.trans ha) hpos
  rw [f1, f3, f4] at g1
  rw [f2] at g2
  rw [f3] at g3
  rw [f4] at g4
  rw [f4] at g5
  exact ⟨g1, g2, g3, g4, g5⟩

/-- A local input in terms of the autosave state: the pending timeout named by
`autosaveTimeout` is replaced by one due 5000ms from now. -/
theorem localInput_state (i0 t0 : Nat) (pending : List Timer) (fired : List Nat)
    (cs : List Node) (sel : Option (Nat × Nat)) (s : Client) (a : Option Nat)
    (h : AutosaveState i0 t0 pending fired s) (ha : s.autosaveTimeout = some a)
    (hne : ∀ d, a = some d → i0 < d) :
    AutosaveState i0 t0
      ((a.elim pending fun d => pending.filter fun t => t.id != d) ++
       [Timer.mk s.nextTimerId (s.now + 5000) .autosaveDocument none])
      fired (localInput cs sel s) ∧
    (localInput cs sel s).autosaveTimeout = some (some s.nextTimerId) ∧
    (localInput cs sel s).now = s.now := by
  obtain ⟨k, hauto, hlo, hhi, hint, hdeb, hfresh, hpend⟩ := h
  obtain ⟨l1, l2, l3, l4, l5⟩ := localInput_timers cs sel s a ha
    (fun d hd => by have := hne d hd; omega)
  refine ⟨⟨k, ?_, by rw [l3]; exact hlo, by rw [l3]; exact hhi, ?_, ?_, by rw [l4]; omega, ?_⟩,
    l5, l3⟩
  · unfold autoTimers at hauto ⊢
    rw [l1, List.filter_append]
    cases a with
    | none =>
      simp only [Option.elim]
      rw [hauto]
      simp [List.filter_cons]
    | some d =>
      simp only [Option.elim]
      have hd : ¬ i0 = d := by have := hne d rfl; omega
      rw [List.filter_filter]
      have : (s.timers.filter fun t => (t.callback == Callback.autosaveDocument) &&
          (t.id != d)) =
          (s.timers.filter fun t => t.callback == Callback.autosaveDocument).filter
            fun t => t.id != d := by
        rw [List.filter_filter]
        simp only [Bool.and_comm]
      rw [this, hauto]
      simp [List.filter_cons, hd]
  · unfold intervalSaves at hint ⊢
    rw [l2]; exact hint
  · unfold debounceSaves at hdeb ⊢
    rw [l2]; exact hdeb
  · intro t ht
    rw [l3]
    rcases List.mem_append.1 ht with h1 | h1
    · cases a with
      | none => exact hpend t h1
      | some d => exact hpend t (List.mem_of_mem_filter h1)
    · rw [List.mem_singleton] at h1
      subst h1
      exact ⟨rfl, hfresh, by simp⟩


theorem setupAutosave_state (s0 : Client) (hpre : s0.BeforeSetup) :
    AutosaveState s0.nextTimerId s0.now [] [] (setupAutosave s0) ∧
    (setupAutosave s0).autosaveTimeout = some none ∧ (setupAutosave s0).now = s0.now := by
  obtain ⟨_, hsaves, hcb⟩ := hpre
  refine ⟨⟨0, ?_, ?_, ?_, ?_, ?_, ?_, ?_⟩, rfl, rfl⟩
  · unfold autoTimers setupAutosave Client.setInterval
    simp only [List.filter_append]
    have : s0.timers.filter (fun t => t.callback == Callback.autosaveDocument) = [] := by
      rw [List.filter_eq_nil_iff]
      intro t ht
      simpa using hcb t ht
    rw [this]
    simp [List.filter_cons]
  · show s0.now + 10000 * 0 ≤ s0.now
    omega
  · show s0.now < s0.now + 10000 * (0 + 1)
    omega
  · show ((s0.saves.filter fun v => v.timer == s0.nextTimerId).map (·.time)) = _
    rw [hsaves]
    rfl
  · show ((s0.saves.filter fun v => v.timer != s0.nextTimerId).map (·.time)) = _
    rw [hsaves]
    rfl
  · show s0.nextTimerId < s0.nextTimerId + 1
    omega
  · intro t ht
    exact absurd ht (List.not_mem_nil _)

theorem advanceTo_keep (i0 t0 : Nat) (pending : List Timer) (fired : List Nat) (t : Nat)
    (s : Client) (h : AutosaveState i0 t0 pending fired s) (hle : s.now ≤ t)
    (hlate : ∀ p ∈ pending, t < p.due) :
    AutosaveState i0 t0 pending fired (advanceTo t s) ∧ (advanceTo t s).now = t ∧
    (advanceTo t s).autosaveTimeout = s.autosaveTimeout := by
  unfold advanceTo
  obtain ⟨n1, n2⟩ := advance_now (t - s.now) s
  refine ⟨advance_keep i0 t0 pending fired _ s h ?_, by rw [n1]; omega, n2⟩
  intro p hp
  have := hlate p hp
  omega

/-- A burst of inputs, each less than 5000ms after the one before: after the
last of them exactly one autosave timeout is pending, due 5000ms after it,
and none has fired during the burst. -/
theorem runInputs_burst (i0 t0 : Nat) (fired : List Nat) : ∀ (l : List InputEvent)
    (prev : InputEvent) (s : Client) (d : Nat),
    AutosaveState i0 t0 [Timer.mk d (prev.time + 5000) .autosaveDocument none] fired s →
    s.autosaveTimeout = some (some d) → s.now = prev.time → List.Chain InBurst prev l →
    ∃ d2, AutosaveState i0 t0
        [Timer.mk d2 ((l.getLastD prev).time + 5000) .autosaveDocument none] fired
        (runInputs l s) ∧
      (runInputs l s).autosaveTimeout = some (some d2) ∧
      (runInputs l s).now = (l.getLastD prev).time := by
  intro l
  induction l with
  | nil =>
    intro prev s d h ha hnow _
    exact ⟨d, h, ha, hnow⟩
  | cons e rest ih =>
    intro prev s d h ha hnow hchain
    rw [List.chain_cons] at hchain
    obtain ⟨⟨hlt, hgap⟩, hrest⟩ := hchain
    obtain ⟨k1, k2, k3⟩ := advanceTo_keep i0 t0 _ fired e.time s h (by omega)
      (by
        intro p hp
        rw [List.mem_singleton] at hp
        subst hp
        exact hgap)
    have hd : i0 < d := by
      obtain ⟨_, _, _, _, _, _, _, hpend⟩ := h
      exact (hpend _ (List.mem_singleton.2 rfl)).2.1
    obtain ⟨m1, m2, m3⟩ := localInput_state i0 t0 _ fired e.childNodes e.selection
      (advanceTo e.time s) (some d) k1 (k3.trans ha)
      (by intro d2 hd2; cases hd2; exact hd)
    have hpend : (Option.elim (some d)
        [Timer.mk d (prev.time + 5000) Callback.autosaveDocument none]
        fun d2 => [Timer.mk d (prev.time + 5000) Callback.autosaveDocument none].filter
          fun t => t.id != d2) = [] := by
      simp [Option.elim, List.filter_cons]
    rw [hpend, k2, List.nil_append] at m1
    rw [List.getLastD_cons]
    exact ih e _ _ m1 m2 (m3.trans k2) hrest

theorem autosaveState_saves (i0 t0 : Nat) (pending : List Timer) (fired : List Nat)
    (s : Client) (h : AutosaveState i0 t0 pending fired s) :
    debounceSaves i0 s = fired ∧
    intervalSaves i0 s =
      (List.range ((s.now - t0) / 10000)).map fun j => t0 + 10000 * (j + 1) := by
  obtain ⟨k, _, hlo, hhi, hint, hdeb, _, _⟩ := h
  have hk : (s.now - t0) / 10000 = k := by omega
  rw [hk]
  exact ⟨hdeb, hint⟩

/-- A burst that starts while no autosave timeout is pending (right after
`setupAutosave`, or once the timeout of an earlier burst has fired): at the
time T the timers other than the interval have saved once more, 5000ms after
the last input, if T has reached that time, and no more than before
otherwise; then no timeout is pending again. -/
theorem burst_from_quiet (i0 t0 : Nat) (fired : List Nat) (s : Client) (a : Option Nat)
    (inputs : List InputEvent) (last : InputEvent) (T : Nat)
    (h : AutosaveState i0 t0 [] fired s) (ha : s.autosaveTimeout = some a)
    (hid : ∀ d, a = some d → i0 < d)
    (hburst : List.Chain' InBurst (inputs ++ [last]))
    (hfirst : ∀ e ∈ (inputs ++ [last]).head?, s.now ≤ e.time) (hT : last.time ≤ T) :
    (advanceTo T (runInputs (inputs ++ [last]) s)).now = T ∧
    ∃ d2, i0 < d2 ∧
      (advanceTo T (runInputs (inputs ++ [last]) s)).autosaveTimeout = some (some d2) ∧
      if last.time + 5000 ≤ T then
        AutosaveState i0 t0 [] (fired ++ [last.time + 5000])
          (advanceTo T (runInputs (inputs ++ [last]) s))
      else
        AutosaveState i0 t0 [Timer.mk d2 (last.time + 5000) .autosaveDocument none] fired
          (advanceTo T (runInputs (inputs ++ [last]) s)) := by
  obtain ⟨e1, rest, hl, hlast⟩ :
      ∃ e1 rest, inputs ++ [last] = e1 :: rest ∧ rest.getLastD e1 = last := by
    cases inputs with
    | nil => exact ⟨last, [], rfl, rfl⟩
    | cons x xs => exact ⟨x, xs ++ [last], rfl, List.getLastD_concat _ _ _⟩
  rw [hl] at hburst hfirst ⊢
  have hfirst1 : s.now ≤ e1.time := hfirst e1 rfl
  obtain ⟨k1, k2, k3⟩ := advanceTo_keep i0 t0 [] fired e1.time s h hfirst1
    (fun p hp => absurd hp (List.not_mem_nil _))
  obtain ⟨m1, m2, m3⟩ := localInput_state i0 t0 [] fired e1.childNodes e1.selection
    (advanceTo e1.time s) a k1 (k3.trans ha) hid
  have hnil : (a.elim ([] : List Timer) fun d => ([] : List Timer).filter fun t => t.id != d)
      = [] := by
    cases a <;> rfl
  rw [hnil, List.nil_append, k2] at m1
  obtain ⟨d2, b1, b2, b3⟩ := runInputs_burst i0 t0 fired rest e1 _ _ m1 m2 (m3.trans k2) hburst
  rw [hlast] at b1 b3
  have hrun : runInputs (e1 :: rest) s =
      runInputs rest (localInput e1.childNodes e1.selection (advanceTo e1.time s)) := rfl
  rw [hrun]
  have hd2 : i0 < d2 := by
    obtain ⟨_, _, _, _, _, _, _, hpend⟩ := b1
    exact (hpend _ (List.mem_singleton.2 rfl)).2.1
  have e0 : ∀ X : Client, advanceTo T X = advance (T - X.now) X := fun _ => rfl
  obtain ⟨n1, n2⟩ := advance_now (T - last.time)
    (runInputs rest (localInput e1.childNodes e1.selection (advanceTo e1.time s)))
  rw [e0, b3]
  refine ⟨by rw [n1, b3]; omega, d2, hd2, n2.trans b2, ?_⟩
  by_cases hfire : last.time + 5000 ≤ T
  · rw [if_pos hfire]
    exact advance_fire i0 t0 _ fired (T - last.time) _ b1 (by simp only; rw [b3]; omega)
  · rw [if_neg hfire]
    apply advance_keep i0 t0 _ fired (T - last.time) _ b1
    intro p hp
    rw [List.mem_singleton] at hp
    subst hp
    simp only
    rw [b3]
    omega

/-- C10. Autosave debounce. `setupAutosave` runs in a state where it has not
run before; then local inputs follow, each less than 5000ms after the one
before, and no other input until the time T. Then the timers other than the
interval have called `autosaveDocument` exactly once, at 5000ms after the last
input, if T has reached that time, and not at all before; and the interval has
called it at every multiple of 10000ms after `setupAutosave`, whatever the
inputs were. -/
theorem autosave_debounce (s0 : Client) (inputs : List InputEvent) (last : InputEvent)
    (T : Nat) (hpre : s0.BeforeSetup) (hburst : List.Chain' InBurst (inputs ++ [last]))
    (hfirst : ∀ e ∈ (inputs ++ [last]).head?, s0.now ≤ e.time) (hT : last.time ≤ T) :
    debounceSaves s0.nextTimerId
        (advanceTo T (runInputs (inputs ++ [last]) (setupAutosave s0))) =
      (if last.time + 5000 ≤ T then [last.time + 5000] else []) ∧
    intervalSaves s0.nextTimerId
        (advanceTo T (runInputs (inputs ++ [last]) (setupAutosave s0))) =
      (List.range ((T - s0.now) / 10000)).map fun j => s0.now + 10000 * (j + 1) := by
  obtain ⟨a1, a2, a3⟩ := setupAutosave_state s0 hpre
  obtain ⟨hnow, d2, _, _, hst⟩ := burst_from_quiet s0.nextTimerId s0.now [] (setupAutosave s0)
    none inputs last T a1 a2 (by intro d hd; cases hd) hburst
    (by rw [a3]; exact hfirst) hT
  by_cases hfire : last.time + 5000 ≤ T
  · rw [if_pos hfire] at hst ⊢
    have hs := autosaveState_saves _ _ _ _ _ hst
    rw [hnow] at hs
    exact hs
  · rw [if_neg hfire] at hst ⊢
    have hs := autosaveState_saves _ _ _ _ _ hst
    rw [hnow] at hs
    exact hs

theorem autosave_debounce_witness :
    ((Client.initial "alice").setInnerHTML [Html.text "hi"]).BeforeSetup ∧
    List.Chain' InBurst ([InputEvent.mk 100 [] none, InputEvent.mk 3100 [] none] ++
      [InputEvent.mk 7100 [] none]) ∧
    (∀ e ∈ ([InputEvent.mk 100 [] none, InputEvent.mk 3100 [] none] ++
      [InputEvent.mk 7100 [] none]).head?,
      ((Client.initial "alice").setInnerHTML [Html.text "hi"]).now ≤ e.time) ∧
    (InputEvent.mk 7100 [] none).time ≤ 25000 ∧
    debounceSaves ((Client.initial "alice").setInnerHTML [Html.text "hi"]).nextTimerId
        (advanceTo 25000 (runInputs ([InputEvent.mk 100 [] none, InputEvent.mk 3100 [] none] ++
          [InputEvent.mk 7100 [] none])
          (setupAutosave ((Client.initial "alice").setInnerHTML [Html.text "hi"])))) =
      (if (InputEvent.mk 7100 [] none).time + 5000 ≤ 25000
        then [(InputEvent.mk 7100 [] none).time + 5000] else []) ∧
    intervalSaves ((Client.initial "alice").setInnerHTML [Html.text "hi"]).nextTimerId
        (advanceTo 25000 (runInputs ([InputEvent.mk 100 [] none, InputEvent.mk 3100 [] none] ++
          [InputEvent.mk 7100 [] none])
          (setupAutosave ((Client.initial "alice").setInnerHTML [Html.text "hi"])))) =
      (List.range ((25000 - ((Client.initial "alice").setInnerHTML [Html.text "hi"]).now)
        / 10000)).map
        fun j => ((Client.initial "alice").setInnerHTML [Html.text "hi"]).now
          + 10000 * (j + 1) :=
  have h1 : ((Client.initial "alice").setInnerHTML [Html.text "hi"]).BeforeSetup := by decide
  have h2 : List.Chain' InBurst ([InputEvent.mk 100 [] none, InputEvent.mk 3100 [] none] ++
      [InputEvent.mk 7100 [] none]) :=
    List.Chain.cons (by decide) (List.Chain.cons (by decide) List.Chain.nil)
  have h3 : ∀ e ∈ ([InputEvent.mk 100 [] none, InputEvent.mk 3100 [] none] ++
      [InputEvent.mk 7100 [] none]).head?,
      ((Client.initial "alice").setInnerHTML [Html.text "hi"]).now ≤ e.time := by
    intro e he
    cases he
    decide
  have h4 : (InputEvent.mk 7100 [] none).time ≤ 25000 := by decide
  ⟨h1, h2, h3, h4, autosave_debounce _ _ _ 25000 h1 h2 h3 h4⟩


/-! ### Supplements -/

theorem length_locsList_ge (cs : List Node) (i : Nat) (c : Node) (hc : c ∈ cs) :
    c.locs.length ≤ (locsList i cs).length := by
  induction cs generalizing i with
  | nil => cases hc
  | cons a as ih =>
    simp only [locsList, List.length_append, List.length_map]
    rcases List.mem_cons.1 hc with h | h
    · subst h; omega
    · have := ih (i + 1) h; omega

theorem length_lt_locs (p : List Nat) : ∀ (n m : Node), nodeAt n p = some m →
    p.length < n.locs.length := by
  induction p with
  | nil =>
    intro n m _
    cases n <;> simp [Node.locs]
  | cons i q ih =>
    intro n m h
    cases n with
    | text r d => simp [nodeAt, Node.childNodes] at h
    | element r t c s cs =>
      simp only [nodeAt, Node.childNodes] at h
      cases hc : cs[i]? with
      | none => rw [hc] at h; cases h
      | some c2 =>
        rw [hc] at h
        have h1 := ih c2 m h
        have h2 := length_locsList_ge cs 0 c2 (List.getElem?_mem hc)
        simp only [Node.locs, List.length_cons]
        omega

/-- The loop of `getNodePath` ends within as many rounds as the editor has
nodes, plus one, for every start node, when the nodes of the editor are
distinct objects: the fuel given to it by `getCursorPosition` is enough. -/
theorem getNodePath_returns (editor : Node) (hnodup : editor.refs.Nodup) (node : Option Nat) :
    getNodePath editor (editor.locs.length + 1) node ≠ none := by
  unfold getNodePath
  cases node with
  | none => simp [getNodePathLoop]
  | some r =>
    by_cases hmem : r ∈ editor.refs
    · obtain ⟨⟨p, m⟩, hpm, hr⟩ := List.mem_map.1 hmem
      simp only at hr
      subst hr
      have hat := (mem_locs_iff editor p m).1 hpm
      have := getNodePathLoop_of_nodeAt editor hnodup p m [] (editor.locs.length + 1) hat
        (by have := length_lt_locs p editor m hat; omega)
      rw [this]
      simp
    · have hne : r ≠ editor.ref := fun e => hmem (e ▸ ref_mem_refs editor)
      have hpar : parentNode editor r = none := by
        unfold parentNode
        cases hfind : editor.locs.find? (fun pm => pm.2.childNodes.any (·.ref == r)) with
        | none => rfl
        | some pm =>
          exfalso
          obtain ⟨q, par⟩ := pm
          have hmem2 := List.mem_of_find?_eq_some hfind
          have hsat := List.find?_some hfind
          simp only [List.any_eq_true, beq_iff_eq] at hsat
          obtain ⟨c, hc, hcref⟩ := hsat
          obtain ⟨j, hj⟩ := List.getElem?_of_mem hc
          have hq := (mem_locs_iff editor q par).1 hmem2
          have e1 : nodeAt editor (q ++ [j]) = some c := by rw [nodeAt_append, hq]; exact hj
          have := (mem_locs_iff editor _ c).2 e1
          exact hmem (hcref ▸ List.mem_map.2 ⟨(q ++ [j], c), this, rfl⟩)
      rw [getNodePathLoop, if_neg hne, hpar]
      simp

/-- What `getNodeFromPath` returns for a path with one index out of range:
`undefined` when that index is the last one, null when more indices follow. -/
theorem getNodeFromPath_out_of_range (editor : Node) (p : List Nat) (n : Node) (i : Nat)
    (rest : List Int) (hn : nodeAt editor p = some n) (hi : n.childNodes.length ≤ i) :
    getNodeFromPath editor (p.map Int.ofNat ++ [(i : Int)]) = .undefined ∧
    getNodeFromPath editor (p.map Int.ofNat ++ (i : Int) :: (0 : Int) :: rest) = .null := by
  have key : ∀ (p : List Nat) (e : Node) (tail : List Int), nodeAt e p = some n →
      getNodeFromPathLoop (.node e) (p.map Int.ofNat ++ (i : Int) :: tail) =
        getNodeFromPathLoop .undefined tail := by
    intro p
    induction p with
    | nil =>
      intro e tail he
      simp only [nodeAt, Option.some.injEq] at he
      subst he
      simp only [List.map_nil, List.nil_append, getNodeFromPathLoop, childAt]
      have h1 : ¬ ((i : Int) < 0) := by simp
      rw [if_neg h1]
      have h2 : e.childNodes[(i : Int).toNat]? = none := by
        simp only [Int.toNat_ofNat]
        exact List.getElem?_eq_none hi
      rw [h2]
    | cons j q ih =>
      intro e tail he
      simp only [nodeAt] at he
      cases hc : e.childNodes[j]? with
      | none => rw [hc] at he; cases he
      | some c =>
        rw [hc] at he
        simp only [List.map_cons, List.cons_append, getNodeFromPathLoop, childAt]
        have h1 : ¬ (Int.ofNat j < 0) := by simp
        rw [if_neg h1]
        show getNodeFromPathLoop (match e.childNodes[j]? with
          | some c => JsNode.node c
          | none => JsNode.undefined) _ = _
        rw [hc]
        exact ih c tail he
  unfold getNodeFromPath
  rw [key p editor [] hn, key p editor _ hn]
  exact ⟨rfl, rfl⟩


/-! ### Reachable states are well formed -/

theorem setStyleList_eq_map (ref : Nat) (d : List (String × String)) (cs : List Node) :
    setStyleList ref d cs = cs.map (Node.setStyle ref d) := by
  induction cs with
  | nil => rfl
  | cons a as ih => simp [setStyleList, ih]

theorem ref_setStyle (ref : Nat) (d : List (String × String)) (n : Node) :
    (n.setStyle ref d).ref = n.ref ∧ (n.setStyle ref d).isElement = n.isElement := by
  cases n <;> exact ⟨rfl, rfl⟩

/-- Styling does not change the references of a tree. -/
theorem mem_refs_setStyle (ref : Nat) (d : List (String × String)) (n : Node) :
    ∀ x, x ∈ (n.setStyle ref d).refs ↔ x ∈ n.refs := by
  induction n using node_induction with
  | htext r txt => intro x; rfl
  | helem r t c s cs ih =>
    intro x
    simp only [Node.setStyle]
    rw [mem_refs_element, mem_refs_element, setStyleList_eq_map]
    constructor
    · rintro (h | ⟨n, hn, hx⟩)
      · exact Or.inl h
      · obtain ⟨m, hm, rfl⟩ := List.mem_map.1 hn
        exact Or.inr ⟨m, hm, (ih m hm x).1 hx⟩
    · rintro (h | ⟨n, hn, hx⟩)
      · exact Or.inl h
      · exact Or.inr ⟨n.setStyle ref d, List.mem_map.2 ⟨n, hn, rfl⟩, (ih n hn x).2 hx⟩

theorem mem_refs_withChildren (e : Node) (cs : List Node) (he : e.isElement = true) (x : Nat) :
    x ∈ (e.withChildren cs).refs ↔ x = e.ref ∨ ∃ n ∈ cs, x ∈ n.refs := by
  cases e with
  | text r d => cases he
  | element r t c s cs0 => exact mem_refs_element _ _ _ _ _ _

theorem root_ref_lt (s : Client) (hwf : s.WellFormed) : s.editor.ref < s.nextRef :=
  hwf.2.1 _ (ref_mem_refs _)

theorem wellFormed_of_children (s : Client) (editor : Node) (cursors : List (String × Nat))
    (next : Nat) (hwf : s.WellFormed) (cs : List Node)
    (he : editor = s.editor.withChildren cs) (hnext : s.nextRef ≤ next)
    (hcs : ∀ n ∈ cs, ∀ r ∈ n.refs, r < next) (hcur : ∀ um ∈ cursors, um.2 < next) :
    (editor.isElement = true ∧ (∀ r ∈ editor.refs, r < next) ∧
      ∀ um ∈ cursors, um.2 < next) := by
  subst he
  refine ⟨by rw [isElement_withChildren]; exact hwf.1, ?_, hcur⟩
  intro r hr
  rw [mem_refs_withChildren _ _ hwf.1] at hr
  rcases hr with rfl | ⟨n, hn, hr⟩
  · have := root_ref_lt s hwf; omega
  · exact hcs n hn r hr

theorem setInnerHTML_wellFormed (content : List Html) (s : Client) (hwf : s.WellFormed) :
    (s.setInnerHTML content).WellFormed := by
  have hb := createList_bounds_all content s.nextRef
  exact wellFormed_of_children s _ _ _ hwf (Html.createList content s.nextRef).1 rfl hb.1
    (fun n hn r hr => (hb.2 n hn r hr).2)
    (fun um hum => by
      have h1 := hwf.2.2 um hum
      have h2 := hb.1
      show um.2 < (Html.createList content s.nextRef).2
      omega)

theorem autosaveListener_wellFormed (s : Client) (hwf : s.WellFormed) :
    (autosaveListener s).WellFormed := by
  obtain ⟨h1, h2, h3⟩ := autosaveListener_dom s
  unfold Client.WellFormed
  rw [h1, h2, h3]
  exact hwf

theorem inputListener_dom (s : Client) :
    (inputListener s).editor = s.editor ∧ (inputListener s).nextRef = s.nextRef ∧
    (inputListener s).cursors = s.cursors ∧ (inputListener s).isUpdating = s.isUpdating := by
  unfold inputListener
  split
  · split <;> exact ⟨rfl, rfl, rfl, rfl⟩
  · exact ⟨rfl, rfl, rfl, rfl⟩

theorem dispatchInput_wellFormed (s : Client) (hwf : s.WellFormed) :
    (dispatchInput s).WellFormed ∧ (dispatchInput s).isUpdating = s.isUpdating := by
  unfold dispatchInput
  obtain ⟨h1, h2, h3, h4⟩ := inputListener_dom s
  have : (inputListener s).WellFormed := by
    unfold Client.WellFormed
    rw [h1, h2, h3]
    exact hwf
  exact ⟨autosaveListener_wellFormed _ this, (autosaveListener_isUpdating _).trans h4⟩

theorem replaceContent_wellFormed (firesInput : Bool) (content : List Html) (s : Client)
    (hupd : s.isUpdating = false) (hwf : s.WellFormed) :
    (replaceContent firesInput content s).WellFormed ∧
    (replaceContent firesInput content s).isUpdating = false := by
  unfold replaceContent
  split
  · have h1 : ({ s with isUpdating := true }.setInnerHTML content).WellFormed :=
      setInnerHTML_wellFormed content { s with isUpdating := true } hwf
    cases firesInput with
    | false => exact ⟨h1, rfl⟩
    | true => exact ⟨(dispatchInput_wellFormed _ h1).1, rfl⟩
  · exact ⟨hwf, hupd⟩

theorem foldl_max_le (l : List Nat) (a : Nat) : a ≤ l.foldl max a ∧ ∀ x ∈ l, x ≤ l.foldl max a := by
  induction l generalizing a with
  | nil => simp
  | cons b bs ih =>
    obtain ⟨h1, h2⟩ := ih (max a b)
    simp only [List.foldl_cons, List.mem_cons]
    refine ⟨by omega, ?_⟩
    rintro x (rfl | hx)
    · omega
    · exact h2 x hx


theorem updateCursor_frame (L : Layout) (username : String) (position : Position)
    (s : Client) :
    (updateCursor L username position s).1.nextRef = (obtainCursor username s).1.nextRef ∧
    (updateCursor L username position s).1.cursors = (obtainCursor username s).1.cursors ∧
    (updateCursor L username position s).1.isUpdating =
      (obtainCursor username s).1.isUpdating := by
  unfold updateCursor
  simp only
  split
  · exact ⟨rfl, rfl, rfl⟩
  · exact ⟨rfl, rfl, rfl⟩
  · split
    · exact ⟨rfl, rfl, rfl⟩
    · split <;> exact ⟨rfl, rfl, rfl⟩

theorem refs_createCursor (username : String) (ref : Nat) :
    (createCursor username ref).refs = [ref] := rfl

theorem obtainCursor_wellFormed (username : String) (s : Client) (hwf : s.WellFormed) :
    (obtainCursor username s).1.WellFormed ∧
    (obtainCursor username s).1.isUpdating = s.isUpdating := by
  unfold obtainCursor
  cases hc : cursorsGet s.cursors username with
  | element m => exact ⟨hwf, rfl⟩
  | inherited => exact ⟨hwf, rfl⟩
  | undefined =>
    refine ⟨?_, rfl⟩
    apply wellFormed_of_children s _ _ _ hwf
      (s.editor.childNodes ++ [createCursor username s.nextRef]) rfl (Nat.le_succ _)
    · intro n hn r hr
      rcases List.mem_append.1 hn with h | h
      · have := child_refs_lt s hwf n h r hr
        show r < s.nextRef + 1
        omega
      · rw [List.mem_singleton] at h
        subst h
        rw [refs_createCursor, List.mem_singleton] at hr
        show r < s.nextRef + 1
        omega
    · intro um hum
      show um.2 < s.nextRef + 1
      rcases List.mem_cons.1 hum with h | h
      · subst h
        simp
      · have := hwf.2.2 um h
        omega

theorem updateCursor_wellFormed (L : Layout) (username : String) (position : Position)
    (s : Client) (hwf : s.WellFormed) :
    (updateCursor L username position s).1.WellFormed ∧
    (updateCursor L username position s).1.isUpdating = s.isUpdating := by
  obtain ⟨o1, o2⟩ := obtainCursor_wellFormed username s hwf
  obtain ⟨f1, f2, f3⟩ := updateCursor_frame L username position s
  refine ⟨?_, f3.trans o2⟩
  unfold Client.WellFormed
  rw [f1, f2]
  rcases updateCursor_editor L username position s with h | ⟨ref, decls, _, h⟩
  · rw [h]
    exact o1
  · rw [h]
    refine ⟨by rw [(ref_setStyle _ _ _).2]; exact o1.1, ?_, o1.2.2⟩
    intro r hr
    exact o1.2.1 r ((mem_refs_setStyle _ _ _ r).1 hr)

theorem showUserTypingIndicator_dom (username : String) (s : Client) :
    (showUserTypingIndicator username s).editor = s.editor ∧
    (showUserTypingIndicator username s).nextRef = s.nextRef ∧
    (showUserTypingIndicator username s).cursors = s.cursors ∧
    (showUserTypingIndicator username s).isUpdating = s.isUpdating := by
  unfold showUserTypingIndicator
  cases queryIndicator username s with
  | none => exact ⟨rfl, rfl, rfl, rfl⟩
  | some b =>
    cases hb : b.timeoutId with
    | none => simp [hb, Client.setTimeout]
    | some id => simp [hb, Client.setTimeout, Client.clearTimeout]

theorem onmessage_wellFormed (L : Layout) (firesInput : Bool) (data : EditMessage)
    (s : Client) (hupd : s.isUpdating = false) (hwf : s.WellFormed) :
    (onmessage L firesInput data s).1.WellFormed ∧
    (onmessage L firesInput data s).1.isUpdating = false := by
  unfold onmessage
  split
  · obtain ⟨r1, r2⟩ := replaceContent_wellFormed firesInput data.content s hupd hwf
    have key : ∀ u : Client, u.WellFormed → u.isUpdating = false →
        (showUserTypingIndicator data.user u).WellFormed ∧
        (showUserTypingIndicator data.user u).isUpdating = false := by
      intro u hu1 hu2
      obtain ⟨t1, t2, t3, t4⟩ := showUserTypingIndicator_dom data.user u
      unfold Client.WellFormed
      rw [t1, t2, t3, t4]
      exact ⟨hu1, hu2⟩
    cases data.cursorPosition with
    | none => exact key _ r1 r2
    | some p =>
      obtain ⟨u1, u2⟩ := updateCursor_wellFormed L data.user p _ r1
      simp only
      split
      · exact ⟨u1, u2.trans r2⟩
      · exact key _ u1 (u2.trans r2)
  · exact ⟨hwf, hupd⟩

theorem tick_dom (s : Client) :
    (tick s).editor = s.editor ∧ (tick s).nextRef = s.nextRef ∧
    (tick s).cursors = s.cursors ∧ (tick s).isUpdating = s.isUpdating := by
  have key : ∀ (l : List Timer) (u : Client),
      (l.foldl runCallback u).editor = u.editor ∧ (l.foldl runCallback u).nextRef = u.nextRef ∧
      (l.foldl runCallback u).cursors = u.cursors ∧
      (l.foldl runCallback u).isUpdating = u.isUpdating := by
    intro l
    induction l with
    | nil => intro u; exact ⟨rfl, rfl, rfl, rfl⟩
    | cons a as ih =>
      intro u
      obtain ⟨i1, i2, i3, i4⟩ := ih (runCallback u a)
      have h : (runCallback u a).editor = u.editor ∧ (runCallback u a).nextRef = u.nextRef ∧
          (runCallback u a).cursors = u.cursors ∧
          (runCallback u a).isUpdating = u.isUpdating := by
        unfold runCallback
        cases a.callback with
        | autosaveDocument => exact ⟨rfl, rfl, rfl, rfl⟩
        | removeTyping un =>
          simp only [removeTyping]
          cases queryIndicator un u <;> exact ⟨rfl, rfl, rfl, rfl⟩
      rw [List.foldl_cons]
      exact ⟨i1.trans h.1, i2.trans h.2.1, i3.trans h.2.2.1, i4.trans h.2.2.2⟩
  unfold tick fireDue
  exact key _ _

theorem localInput_wellFormed (cs : List Node) (sel : Option (Nat × Nat)) (s : Client)
    (hwf : s.WellFormed) :
    (localInput cs sel s).WellFormed ∧ (localInput cs sel s).isUpdating = s.isUpdating := by
  unfold localInput
  apply dispatchInput_wellFormed
  have hmax := foldl_max_le (s.editor.withChildren cs).refs 0
  refine ⟨by show (s.editor.withChildren cs).isElement = true
             rw [isElement_withChildren]; exact hwf.1, ?_, ?_⟩
  · intro r hr
    have := hmax.2 r hr
    show r < max s.nextRef ((s.editor.withChildren cs).refs.foldl max 0 + 1)
    omega
  · intro um hum
    have := hwf.2.2 um hum
    show um.2 < max s.nextRef ((s.editor.withChildren cs).refs.foldl max 0 + 1)
    omega

/-- Every state that the page of a user reaches, whatever the events, is well
formed and has `isUpdating` false. -/
theorem reach_wellFormed (L : Layout) (currentUser : String) (events : List Event) :
    (reach L currentUser events).WellFormed ∧ (reach L currentUser events).isUpdating = false := by
  unfold reach
  have key : ∀ (events : List Event) (s : Client), s.WellFormed → s.isUpdating = false →
      (events.foldl (step L) s).WellFormed ∧ (events.foldl (step L) s).isUpdating = false := by
    intro events
    induction events with
    | nil => intro s h1 h2; exact ⟨h1, h2⟩
    | cons e es ih =>
      intro s h1 h2
      rw [List.foldl_cons]
      have hstep : (step L s e).WellFormed ∧ (step L s e).isUpdating = false := by
        cases e with
        | load content =>
          have := setInnerHTML_wellFormed content s h1
          exact ⟨this, h2⟩
        | message f data => exact onmessage_wellFormed L f data s h2 h1
        | input cs sel =>
          obtain ⟨w1, w2⟩ := localInput_wellFormed cs sel s h1
          exact ⟨w1, w2.trans h2⟩
        | tick =>
          obtain ⟨t1, t2, t3, t4⟩ := tick_dom s
          refine ⟨?_, t4.trans h2⟩
          show (tick s).WellFormed
          unfold Client.WellFormed
          rw [t1, t2, t3]
          exact h1
      exact ih _ hstep.1 hstep.2
  apply key
  · refine ⟨rfl, ?_, ?_⟩
    · intro r hr
      have : (Client.initial currentUser).editor.refs = [0] := rfl
      rw [this, List.mem_singleton] at hr
      subst hr
      show 0 < 1
      omega
    · intro um hum
      cases hum
  · rfl


/-! ### Resolution before and after a marker is appended -/

theorem getNodeFromPathLoop_undefined (rest : List Int) :
    (match getNodeFromPathLoop .undefined rest with
      | .ok node => node
      | .error _ => JsNode.null).isNode = false := by
  cases rest <;> rfl

/-- A path that does not resolve in the editor, and is not the index of a
child appended next, does not resolve after a childless node is appended. -/
theorem getNodeFromPath_appendChild (editor child : Node) (path : List Int)
    (he : editor.isElement = true) (hleaf : child.childNodes = [])
    (h : (getNodeFromPath editor path).isNode = false)
    (hne : path ≠ [(editor.childNodes.length : Int)]) :
    (getNodeFromPath (editor.appendChild child) path).isNode = false := by
  cases path with
  | nil => exact absurd h (by simp [getNodeFromPath, getNodeFromPathLoop, JsNode.isNode])
  | cons i rest =>
    have hch : (editor.appendChild child).childNodes = editor.childNodes ++ [child] :=
      childNodes_withChildren _ _ he
    unfold getNodeFromPath at h ⊢
    simp only [getNodeFromPathLoop, childAt] at h ⊢
    rw [hch]
    by_cases hneg : i < 0
    · rw [if_pos hneg] at h ⊢
      exact h
    · rw [if_neg hneg] at h ⊢
      rcases Nat.lt_trichotomy i.toNat editor.childNodes.length with hlt | heq | hgt
      · rw [List.getElem?_append_left hlt]
        exact h
      · have hget : (editor.childNodes ++ [child])[i.toNat]? = some child := by
          rw [heq]
          simp
        rw [hget]
        simp only
        cases rest with
        | nil =>
          exfalso
          apply hne
          have : i = (editor.childNodes.length : Int) := by omega
          rw [this]
        | cons j r =>
          simp only [getNodeFromPathLoop, childAt, hleaf]
          have : (if j < 0 then JsNode.undefined
              else match ([] : List Node)[j.toNat]? with
                | some c => JsNode.node c
                | none => JsNode.undefined) = JsNode.undefined := by
            split <;> rfl
          rw [this]
          exact getNodeFromPathLoop_undefined r
      · have hget : (editor.childNodes ++ [child])[i.toNat]? = none := by
          apply List.getElem?_eq_none
          simp only [List.length_append, List.length_singleton]
          omega
        rw [hget]
        simp only
        exact getNodeFromPathLoop_undefined rest

end CollaborativeEditor
